import Mathlib

/-!
Verification development for the download job engine of the `burping-slugs`
repository (`src/url_downloader.py`, with the duration probe from
`src/audio_utils.py` treated as an external collaborator).

The Python code is shallowly embedded as executable Lean definitions:

* Strings are embedded as `String`/`List Char`; the specific regular
  expressions of the source are embedded as character-level scanners that
  replicate Python's `re.sub` left-to-right, non-overlapping semantics for
  exactly those patterns.
* The SHA-256 digest is abstracted as a parameter `h : String → String`
  (only `hexdigest()[:16]` of the *normalized* URL is ever used, so every
  claim about hashing is proved for an arbitrary digest function).
* The JSON cache index file is modelled by a small JSON value type `JVal`;
  Python's `in` / `[]` operators on the loaded value are modelled including
  the `TypeError`/`KeyError` they can raise.
* Filesystem state is modelled by `CacheSt`: the contents of `index.json`
  and the set of file names present in the cache directory.
* Network collaborators (audio-url-transformer, direct HTTP download,
  page-title fetch, yt-dlp, ffprobe duration probe) are modelled by an
  environment record `Env` describing their behaviour for one call, as in
  the collaborator contracts of the specification.
* The background job body `start_download.run` is modelled as the list of
  job snapshots it writes (`runSnaps`), driven by the progress events that
  `download_url` emits.
-/

/-! ### Characters: Python character classes used by the source regexes -/

/-- Python `\w` (ASCII range, as appearing in URLs): letter, digit or `_`. -/
def wordChar (c : Char) : Bool :=
  c.isAlpha || c.isDigit || c = '_'

/-- Python `\s` (ASCII range): whitespace characters. -/
def pyWhitespace (c : Char) : Bool :=
  c = ' ' || c = '\t' || c = '\n' || c = '\r' ||
    c = (Char.ofNat 11) || c = (Char.ofNat 12)

/-! ### `normalize_url` (src/url_downloader.py lines 76-94)

Stage 1 embeds `re.sub(r'[?&](utm_\w+|fbclid|ref|feature)=[^&]*', '', url)`.
`tryTrack` is the attempt to match `(utm_\w+|fbclid|ref|feature)=[^&]*`
right after a `?`/`&`; on success it returns the rest of the input after
the whole match (greedy `\w+` before a `=` and greedy `[^&]*` have no
successful backtracks, so maximal munch is exact here). -/

/-- Consume `[^&]*` greedily: drop up to the next `&` (or the end). -/
def valueDrop (l : List Char) : List Char :=
  l.dropWhile (fun c => !(c = '&'))

/-- Try to match `(utm_\w+|fbclid|ref|feature)=[^&]*` at the start of `l`,
returning the remainder after the match.  The four regex alternatives are
mutually exclusive on any input, so the order of the checks is irrelevant
and matches the regex alternation order. -/
def tryTrack : List Char → Option (List Char)
  | 'u' :: 't' :: 'm' :: '_' :: rest =>
    let w := rest.takeWhile wordChar
    if w.isEmpty then none
    else
      match rest.drop w.length with
      | '=' :: r => some (valueDrop r)
      | _ => none
  | 'f' :: 'b' :: 'c' :: 'l' :: 'i' :: 'd' :: '=' :: r => some (valueDrop r)
  | 'r' :: 'e' :: 'f' :: '=' :: r => some (valueDrop r)
  | 'f' :: 'e' :: 'a' :: 't' :: 'u' :: 'r' :: 'e' :: '=' :: r => some (valueDrop r)
  | _ => none

/-- Left-to-right, non-overlapping scan for stage 1 of `normalize_url`.
`fuel` is an upper bound on the number of steps (any `fuel ≥` input length
gives the same result); a match is attempted at each `?`/`&`, and on
failure the scanner advances one character, as `re.sub` does. -/
def stripTrackF : Nat → List Char → List Char
  | 0, _ => []
  | _, [] => []
  | fuel + 1, c :: cs =>
    if c = '?' || c = '&' then
      match tryTrack cs with
      | some r => stripTrackF fuel r
      | none => c :: stripTrackF fuel cs
    else c :: stripTrackF fuel cs

/-- Prefix test on character lists. -/
def isPre : List Char → List Char → Bool
  | [], _ => true
  | _ :: _, [] => false
  | a :: as, b :: bs => a = b && isPre as bs

/-- Left-to-right, non-overlapping literal substitution: at each position
try the patterns in order (all patterns are nonempty); on a match emit
`rep` and continue after the matched text (the replacement is not
rescanned), else emit the character and advance.  This is `re.sub` for a
pattern that is an alternation of literals, such as
`(?:www\.)?youtu\.be/` = `www.youtu.be/ | youtu.be/`. -/
def reSubLitF (pats : List (List Char)) (rep : List Char) : Nat → List Char → List Char
  | 0, _ => []
  | _, [] => []
  | fuel + 1, c :: cs =>
    match pats.find? (fun p => isPre p (c :: cs)) with
    | some p => rep ++ reSubLitF pats rep fuel ((c :: cs).drop p.length)
    | none => c :: reSubLitF pats rep fuel cs

/-- Python `str.rstrip` for a one-character class: remove the maximal
suffix of characters satisfying `p`. -/
def rstripP (p : Char → Bool) : List Char → List Char
  | [] => []
  | c :: cs =>
    match rstripP p cs with
    | [] => if p c then [] else [c]
    | r => c :: r

/-- `normalize_url` (lines 76-94): strip tracking parameters, rewrite
`youtu.be/` and `youtube.com/shorts/` links (with optional `www.`) to
`youtube.com/watch?v=`, then strip all trailing `/` characters
(`url.rstrip('/')`). -/
def normalize_url (url : String) : String :=
  let l1 := stripTrackF url.data.length url.data
  let l2 := reSubLitF ["www.youtu.be/".data, "youtu.be/".data]
    "youtube.com/watch?v=".data l1.length l1
  let l3 := reSubLitF ["www.youtube.com/shorts/".data, "youtube.com/shorts/".data]
    "youtube.com/watch?v=".data l2.length l2
  ⟨rstripP (fun c => c = '/') l3⟩

/-- `url_hash` (lines 97-107): first 16 characters of the hex digest of the
normalized URL.  The SHA-256 hex digest itself is abstracted as the
parameter `h`; a real digest always returns 64 hex characters. -/
def url_hash (h : String → String) (url : String) : String :=
  ⟨(h (normalize_url url)).data.take 16⟩

/-! ### `safe_filename` (src/url_downloader.py lines 110-129) -/

/-- The character class `[<>:"/\\|?*\x00-\x1f]` of line 121. -/
def unsafeChar (c : Char) : Bool :=
  c = '<' || c = '>' || c = ':' || c = '"' || c = '/' || c = '\\' ||
    c = '|' || c = '?' || c = '*' || c.toNat < 32

/-- Membership in the run class `[_\s]` of line 123. -/
def runChar (c : Char) : Bool :=
  c = '_' || pyWhitespace c

/-- Collapse every maximal run of `[_\s]` characters to a single `_`
(`re.sub(r'[_\s]+', '_', ·)`); the flag records whether the previous
character belonged to a run. -/
def collapseRuns : Bool → List Char → List Char
  | _, [] => []
  | inRun, c :: cs =>
    if runChar c then
      if inRun then collapseRuns true cs else '_' :: collapseRuns true cs
    else c :: collapseRuns false cs

/-- The strip class of `strip('_.')` / `rstrip('_.')`. -/
def stripChar (c : Char) : Bool :=
  c = '_' || c = '.'

/-- `safe_filename` (lines 110-129). -/
def safe_filename (title : String) (maxLength : Nat := 100) : String :=
  let s1 := title.data.map (fun c => if unsafeChar c then '_' else c)
  let s2 := collapseRuns false s1
  let s3 := rstripP stripChar (s2.dropWhile stripChar)
  let s4 := if s3.length > maxLength then rstripP stripChar (s3.take maxLength) else s3
  if s4.isEmpty then "untitled" else ⟨s4⟩

/-! ### JSON values and the on-disk cache (lines 132-194)

`index.json` is loaded with `json.load`; the loaded value may have any
JSON shape, so Python's `in`, `[]` and field accesses on it are modelled
together with the `TypeError` / `KeyError` they can raise. -/

/-- A JSON value, as produced by `json.load`.  Objects come from Python
dicts, so their key lists are duplicate-free. -/
inductive JVal where
  | str (s : String)
  | num (q : ℚ)
  | jbool (b : Bool)
  | jnull
  | arr (l : List JVal)
  | obj (l : List (String × JVal))
  deriving Repr

/-- First value bound to `k` (Python dict lookup; object key lists are
duplicate-free, so first-match equals the dict semantics). -/
def jGet (l : List (String × JVal)) (k : String) : Option JVal :=
  match l.find? (fun kv => kv.1 = k) with
  | some kv => some kv.2
  | none => none

/-- `d[k] = v` on a Python dict: replace the bound value if the key is
present, otherwise append the new binding. -/
def jSet (l : List (String × JVal)) (k : String) (v : JVal) : List (String × JVal) :=
  if l.any (fun kv => kv.1 = k) then
    l.map (fun kv => if kv.1 = k then (k, v) else kv)
  else l ++ [(k, v)]

/-- `del d[k]` on a Python dict (key lists are duplicate-free, so
filtering is exact). -/
def jDel (l : List (String × JVal)) (k : String) : List (String × JVal) :=
  l.filter (fun kv => !(kv.1 = k))

/-- State of the `index.json` file in a cache directory. -/
inductive IndexFile where
  | missing      -- the file does not exist
  | unreadable   -- `open` raises `OSError`
  | invalid      -- the bytes are not valid JSON (`json.JSONDecodeError`)
  | valid (j : JVal)
  deriving Repr

/-- Filesystem state of one cache directory: the index file, and the names
of the media files present in the directory (paths are represented
relative to the cache directory). -/
structure CacheSt where
  indexFile : IndexFile
  files : List String
  deriving Repr

/-- `load_cache_index` (lines 132-148): the parsed JSON value, or `{}` when
the file is missing, unreadable or not valid JSON. -/
def load_cache_index : IndexFile → JVal
  | .valid j => j
  | _ => .obj []

/-- Errors raised out of the embedded code.  `keyError`/`typeError` are the
Python exceptions of those names; the others are the errors raised
explicitly by `download_url` or by its collaborators. -/
inductive DlError where
  | tooShort (duration : ℚ)  -- ValueError "Audio too short (...) - likely invalid URL"
  | outputNotFound           -- RuntimeError "Download completed but output file not found"
  | httpError                -- requests exception from `raise_for_status`
  | extractorError           -- yt-dlp raised
  | keyError
  | typeError
  deriving Repr, DecidableEq

/-- `DownloadResult` (lines 38-44); `filepath` is relative to the cache
directory. -/
structure DownloadResult where
  filepath : String
  title : String
  duration : ℚ
  source_url : String
  deriving Repr, DecidableEq

/-- `get_cached` (lines 164-194).  Returns the outcome (a cache hit, a
miss, or a raised exception) together with the resulting filesystem state;
the only write is the self-healing deletion of a stale entry.  Python's
`cache_key not in index` and `index[cache_key]` are modelled per JSON
shape, including the exceptions they raise on non-object shapes.
One modelling narrowing: when an entry is present and its file exists but
one of `title`/`duration`/`url` has the wrong JSON type, this model raises
`keyError` whereas Python would build a `DownloadResult` carrying a
wrongly-typed field; no theorem below depends on that corner. -/
def get_cached (h : String → String) (url : String) (s : CacheSt) :
    Except DlError (Option DownloadResult) × CacheSt :=
  let key := url_hash h url
  match load_cache_index s.indexFile with
  | .obj l =>
    match jGet l key with
    | none => (.ok none, s)
    | some entry =>
      match entry with
      | .obj el =>
        match jGet el "filename" with
        | some (.str fn) =>
          if fn ∈ s.files then
            match jGet el "title", jGet el "duration", jGet el "url" with
            | some (.str t), some (.num d), some (.str u) =>
              (.ok (some ⟨fn, t, d, u⟩), s)
            | _, _, _ => (.error .keyError, s)
          else
            -- stale entry: delete it and persist the updated index
            (.ok none, { s with indexFile := .valid (.obj (jDel l key)) })
        | some _ => (.error .typeError, s)  -- `cache_dir / non-str` raises
        | none => (.error .keyError, s)     -- entry["filename"] missing
      | _ => (.error .typeError, s)         -- entry[...] on a non-dict
  | .str t =>
    -- `key not in <str>` is a substring test; `<str>[key]` raises
    if decide ((url_hash h url).data <:+: t.data) then (.error .typeError, s)
    else (.ok none, s)
  | .arr a =>
    -- `key not in <list>` compares elements; `<list>[key]` raises
    if a.any (fun v => match v with | .str sv => sv = url_hash h url | _ => false) then
      (.error .typeError, s)
    else (.ok none, s)
  | _ => (.error .typeError, s)  -- `in` on a number/bool/null raises

/-! ### Pure URL helpers used by the direct strategy (lines 228-239, 327-328) -/

/-- Does `needle` occur as a contiguous substring of `hay`? -/
def containsSub (hay needle : List Char) : Bool :=
  match hay with
  | [] => isPre needle []
  | _ :: t => isPre needle hay || containsSub t needle

/-- `re.search(r'(youtube\.com|youtu\.be)/', url)` (line 314). -/
def isYoutubeUrl (url : String) : Bool :=
  containsSub url.data "youtube.com/".data || containsSub url.data "youtu.be/".data

/-- Everything after the first `://`, if any. -/
def afterScheme : List Char → Option (List Char)
  | ':' :: '/' :: '/' :: r => some r
  | [] => none
  | _ :: t => afterScheme t

/-- The `path` component of `urlparse`, modelled for the absolute
`http(s)://...` URLs this code handles: the text between the end of the
authority (the first `/` after `://`) and the first `?` or `#`; for inputs
without `://` the whole text up to `?`/`#` (no scheme/params splitting). -/
def urlPath (u : String) : List Char :=
  let stop := fun c => c = '?' || c = '#'
  match afterScheme u.data with
  | some r => (r.dropWhile (fun c => !(c = '/' || stop c))).takeWhile (fun c => !stop c)
  | none => u.data.takeWhile (fun c => !stop c)

/-- `pathlib.PurePath(...).suffix` of a path's final component: the part
from the last `.`, provided that dot is neither the first nor the last
character of the component. -/
def pathSuffix (path : List Char) : List Char :=
  let comp := ((rstripP (fun c => c = '/') path).reverse.takeWhile (fun c => !(c = '/'))).reverse
  let tail := comp.reverse.takeWhile (fun c => !(c = '.'))
  if tail.length = comp.length then []          -- no dot
  else if comp.length - tail.length - 1 = 0 then []  -- leading dot
  else if tail.length = 0 then []               -- trailing dot
  else '.' :: tail.reverse

/-- Python `str.title()` (restricted to ASCII letters): uppercase every
letter that follows a non-letter, lowercase every other letter. -/
def pyTitle : Bool → List Char → List Char
  | _, [] => []
  | prevAlpha, c :: cs =>
    if c.isAlpha then
      (if prevAlpha then c.toLower else c.toUpper) :: pyTitle true cs
    else c :: pyTitle false cs

/-- `_title_from_url` (lines 228-239). -/
def titleFromUrl (url : String) : String :=
  let path := rstripP (fun c => c = '/') (urlPath url)
  if path.isEmpty then "Unknown"
  else
    let filename := (path.reverse.takeWhile (fun c => !(c = '/'))).reverse
    let name :=
      if filename.any (fun c => c = '.') then
        (filename.reverse.dropWhile (fun c => !(c = '.'))).reverse.dropLast
      else filename
    let name := name.map (fun c => if c = '-' || c = '_' then ' ' else c)
    if name.isEmpty then "Unknown" else ⟨pyTitle false name⟩

/-! ### The environment: external collaborators for one `download_url` call -/

/-- One `progress_hooks` callback dict from yt-dlp (§6 contract of the
spec).  `downloaded`/`totalBytes`/`totalEstimate` are the values of
`downloaded_bytes` / `total_bytes` / `total_bytes_estimate` (`none` =
key absent). -/
inductive Hook where
  | downloading (downloaded : Option ℕ) (totalBytes : Option ℕ) (totalEstimate : Option ℕ)
  | finished
  | other        -- any other status: the hook body does nothing
  deriving Repr, DecidableEq

/-- Result of a successful `ydl.extract_info` call: metadata and the
extensions of the files it wrote into the cache directory (named
`{cache_key}.{ext}`).  `title`/`duration` are `info.get(...)` with `none`
for an absent (or `None`-valued) key. -/
structure YtInfo where
  title : Option String
  duration : Option ℚ
  exts : List String
  deriving Repr, DecidableEq

/-- Behaviour of the external collaborators during one `download_url`
call, per the contracts in §6 of the spec. -/
structure Env where
  /-- `_transformer.is_audio_url(url)`: cheap local classifier. -/
  isAudio : Bool
  /-- `_transformer.transform(url)`: a direct URL, or a raised exception. -/
  transform : Except Unit String
  /-- `requests.get` of the direct URL: `.error` = HTTP error status from
  `raise_for_status` (before the output file is created); `.ok` = the
  stream completes and the output file is written. -/
  direct : Except Unit Unit
  /-- `int(response.headers.get("content-length", 0))`. -/
  contentLength : ℕ
  /-- sizes of the chunks yielded by `response.iter_content`. -/
  chunks : List ℕ
  /-- duration probe (ffprobe) on the direct strategy's output file;
  `none` = probe failed. -/
  probeDirect : Option ℚ
  /-- `_get_page_title(url)`: `none` covers every failure (swallowed). -/
  pageTitle : Option String
  /-- `ydl.extract_info(url, download=True)`: info or a raised exception. -/
  yt : Except Unit YtInfo
  /-- the hook dicts yt-dlp feeds to `progress_hook`, in order. -/
  hooks : List Hook
  /-- duration probe on the fallback strategy's output file. -/
  probeFallback : Option ℚ

/-- Network collaborator invocations, for the idempotence claim. -/
inductive NetEv where
  | transformCall  -- `_transformer.transform`
  | directFetch    -- `requests.get` of the direct audio URL
  | pageFetch      -- `_get_page_title`'s `requests.get`
  | extractorCall  -- `ydl.extract_info`
  deriving Repr, DecidableEq

/-- The human-readable progress messages, kept structured (the numeric
text formatting of e.g. `f"Downloading: {percent:.0f}%"` is not modelled). -/
inductive Msg where
  | starting                  -- "Starting download..."
  | resolving                 -- "Resolving audio URL..."
  | downloading (percent : ℚ) -- "Downloading: ...%"
  | downloadComplete          -- "Download complete"
  | processingAudio           -- "Processing audio..."
  | usingCached (title : String)  -- "Using cached: ..."
  | complete (title : String)     -- "Complete: ..."
  | failed (e : DlError)          -- "Failed: ..."
  deriving Repr, DecidableEq

/-- One `on_progress(job_id, percent, message)` invocation. -/
abbrev ProgEv := ℚ × Msg

/-- The outcome of one `download_url` call: result or raised error, the
filesystem state afterwards, the network collaborator calls made, and the
progress callbacks issued (in order). -/
structure DlOut where
  res : Except DlError DownloadResult
  state : CacheSt
  net : List NetEv
  prog : List ProgEv
  deriving Repr

/-! ### `download_url` (lines 279-442) -/

/-- Was the transformer consulted?  (line 315: not a YouTube URL and the
classifier accepted the URL). -/
def transformTried (env : Env) (url : String) : Bool :=
  !isYoutubeUrl url && env.isAudio

/-- The `direct_url` selected at line 324: present iff the transformer was
consulted and returned (without raising) a truthy URL different from the
input. -/
def directUrlOf (env : Env) (url : String) : Option String :=
  if transformTried env url then
    match env.transform with
    | .ok du => if du ≠ "" && du ≠ url then some du else none
    | .error _ => none
  else none

/-- Progress events of the direct-download loop (lines 216-225): one
callback per chunk when a positive total is known, with
`percent = downloaded/total*100`. -/
def chunkEvents (total : ℕ) : ℕ → List ℕ → List ProgEv
  | _, [] => []
  | downloaded, c :: cs =>
    let d := downloaded + c
    if total > 0 then
      ((d : ℚ) / (total : ℚ) * 100, .downloading ((d : ℚ) / (total : ℚ) * 100))
        :: chunkEvents total d cs
    else chunkEvents total d cs

/-- `total_bytes or total_bytes_estimate or 0` (line 371): Python `or`
skips falsy (absent or zero) values. -/
def hookTotal (tb te : Option ℕ) : ℕ :=
  match tb with
  | some t => if t ≠ 0 then t else (match te with | some u => u | none => 0)
  | none => (match te with | some u => u | none => 0)

/-- Progress event of one yt-dlp hook dict (lines 369-381). -/
def hookEvent : Hook → Option ProgEv
  | .downloading dl tb te =>
    let total := hookTotal tb te
    let downloaded := dl.getD 0
    let percent : ℚ := if total > 0 then (downloaded : ℚ) / (total : ℚ) * 100 else 0
    some (percent, .downloading percent)
  | .finished => some (100, .processingAudio)
  | .other => none

/-- All progress events issued by the yt-dlp hooks. -/
def hookEvents (hooks : List Hook) : List ProgEv :=
  hooks.filterMap hookEvent

/-- The cache-entry JSON object written on success (lines 350-355 /
426-431). -/
def cacheEntry (url title : String) (duration : ℚ) (filename : String) : JVal :=
  .obj [("url", .str url), ("title", .str title),
        ("duration", .num duration), ("filename", .str filename)]

/-- `index = load_cache_index(...); index[cache_key] = {...};
save_cache_index(...)` (lines 349-356 / 425-432).  If the loaded JSON
value is not an object, the item assignment raises `TypeError`. -/
def storeIndex (key url title : String) (duration : ℚ) (filename : String)
    (s : CacheSt) : Except DlError CacheSt :=
  match load_cache_index s.indexFile with
  | .obj l => .ok { s with indexFile := .valid (.obj (jSet l key (cacheEntry url title duration filename))) }
  | _ => .error .typeError

/-- Record a file as present (an `open(..., "wb")` write creates or
overwrites it). -/
def addFile (n : String) (fs : List String) : List String :=
  if n ∈ fs then fs else fs ++ [n]

/-- `unlink(missing_ok=True)`. -/
def removeFile (n : String) (fs : List String) : List String :=
  fs.filter (fun m => !(m = n))

/-- The output filename of the direct strategy (lines 327-329):
`{cache_key}{ext}` with `ext` the suffix of the direct URL's path,
defaulting to `.mp3`. -/
def directName (h : String → String) (url du : String) : String :=
  let sfx := pathSuffix (urlPath du)
  url_hash h url ++ ⟨if sfx.isEmpty then ".mp3".data else sfx⟩

/-- The direct strategy (lines 324-366), entered with `du` the resolved
direct URL, `s` the state after the cache miss, and `net`/`prog` the
events accumulated so far. -/
def directPath (h : String → String) (env : Env) (url du : String) (s : CacheSt)
    (net : List NetEv) (prog : List ProgEv) : DlOut :=
  let key := url_hash h url
  let name : String := directName h url du
  let net := net ++ [.directFetch]
  match env.direct with
  | .error _ => ⟨.error .httpError, s, net, prog⟩
  | .ok _ =>
    let s := { s with files := addFile name s.files }
    let prog := prog ++ chunkEvents env.contentLength 0 env.chunks ++ [(100, .downloadComplete)]
    let d : ℚ := (env.probeDirect).getD 0     -- `get_duration(...) or 0.0`
    if d < 1 then
      -- lines 341-343: delete the file, raise ValueError
      ⟨.error (.tooShort d), { s with files := removeFile name s.files }, net, prog⟩
    else
      let net := net ++ [.pageFetch]
      let title := (env.pageTitle).getD (titleFromUrl url)
      match storeIndex key url title d name s with
      | .error e => ⟨.error e, s, net, prog⟩
      | .ok s' => ⟨.ok ⟨name, title, d, url⟩, s', net, prog ++ [(100, .complete title)]⟩

/-- The ordered extension probe of lines 402-407. -/
def extProbe : List String := ["mp3", "m4a", "webm", "opus", "ogg", "wav"]

/-- The cache-directory contents after yt-dlp wrote its output files
(`{cache_key}.{ext}` for each produced extension). -/
def ytFiles (h : String → String) (url : String) (info : YtInfo)
    (fs : List String) : List String :=
  info.exts.foldl (fun fs e => addFile (url_hash h url ++ "." ++ e) fs) fs

/-- The duration used by the fallback strategy (lines 413-417): the
extractor's metadata duration, or the duration probe (or 0) when the
metadata is absent or zero. -/
def fallbackDuration (env : Env) (info : YtInfo) : ℚ :=
  let d0 : ℚ := (info.duration).getD 0    -- `info.get("duration", 0.0) or 0.0`
  if d0 = 0 then (env.probeFallback).getD 0 else d0

/-- The fallback (yt-dlp) strategy, lines 368-442. -/
def fallbackPath (h : String → String) (env : Env) (url : String) (s : CacheSt)
    (net : List NetEv) (prog : List ProgEv) : DlOut :=
  let key := url_hash h url
  let net := net ++ [.extractorCall]
  let prog := prog ++ hookEvents env.hooks
  match env.yt with
  | .error _ => ⟨.error .extractorError, s, net, prog⟩
  | .ok info =>
    let s := { s with files := ytFiles h url info s.files }
    match extProbe.find? (fun e => decide ((key ++ "." ++ e) ∈ s.files)) with
    | none => ⟨.error .outputNotFound, s, net, prog⟩
    | some e =>
      let name := key ++ "." ++ e
      let title := (info.title).getD "Unknown"
      let d : ℚ := fallbackDuration env info
      if d < 1 then
        ⟨.error (.tooShort d), { s with files := removeFile name s.files }, net, prog⟩
      else
        match storeIndex key url title d name s with
        | .error e' => ⟨.error e', s, net, prog⟩
        | .ok s' => ⟨.ok ⟨name, title, d, url⟩, s', net, prog ++ [(100, .complete title)]⟩

/-- `download_url` (lines 279-442): cache lookup, then the direct strategy
when the transformer resolves a distinct direct URL, else the yt-dlp
fallback. -/
def download_url (h : String → String) (env : Env) (url : String) (s : CacheSt) : DlOut :=
  match get_cached h url s with
  | (.error e, s') => ⟨.error e, s', [], []⟩
  | (.ok (some c), s') => ⟨.ok c, s', [], [(100, .usingCached c.title)]⟩
  | (.ok none, s') =>
    let net : List NetEv := if transformTried env url then [.transformCall] else []
    let prog : List ProgEv := if transformTried env url then [(0, .resolving)] else []
    match directUrlOf env url with
    | some du => directPath h env url du s' net prog
    | none => fallbackPath h env url s' net prog

/-! ### The background job body `start_download.run` (lines 458-506) -/

/-- `JobStatus` (lines 30-35). -/
inductive JobStatus where
  | PENDING
  | DOWNLOADING
  | PROCESSING
  | COMPLETE
  | FAILED
  deriving Repr, DecidableEq

/-- A snapshot of the mutable fields of a `DownloadJob` that a concurrent
poller can read (lines 47-56; the immutable `id`/`url` are omitted). -/
structure JobView where
  status : JobStatus
  progress : ℚ
  message : Msg
  result : Option DownloadResult
  error : Option DlError
  deriving Repr, DecidableEq

/-- The job as created by `start_download` (line 474). -/
def jobInit : JobView :=
  ⟨.PENDING, 0, .starting, none, none⟩

/-- The job right after `run` starts (lines 480-481).  (`message` is set to
"Starting download..."; the initial empty message is not distinguished.) -/
def jobStarted : JobView :=
  ⟨.DOWNLOADING, 0, .starting, none, none⟩

/-- The `on_progress` closure of `run` (lines 483-487): store percent and
message, and flip the status to PROCESSING once percent reaches 100. -/
def stepProg (j : JobView) (e : ProgEv) : JobView :=
  { j with progress := e.1, message := e.2,
           status := if e.1 ≥ 100 then .PROCESSING else j.status }

/-- The job snapshots observable while the progress callbacks run: the
state before any callback, then the state after each one. -/
def midSnaps (j : JobView) : List ProgEv → List JobView
  | [] => [j]
  | e :: es => j :: midSnaps (stepProg j e) es

/-- The job state after all progress callbacks. -/
def afterProg (j : JobView) (evs : List ProgEv) : JobView :=
  evs.foldl stepProg j

/-- The terminal write of `run` (lines 489-498): COMPLETE with progress
100 and the result on success, FAILED with the error (progress retained)
on an exception. -/
def finalize (j : JobView) : Except DlError DownloadResult → JobView
  | .ok r => { j with status := .COMPLETE, progress := 100, result := some r,
                      message := .complete r.title }
  | .error e => { j with status := .FAILED, error := some e, message := .failed e }

/-- Every job state observable by pollers over the lifetime of one job,
in write order: PENDING at submission, DOWNLOADING at the start of `run`,
one state per progress callback, and the terminal state.  Nothing in the
system writes to the job afterwards (`on_complete` runs after the
terminal write and only reads the job; `cleanup_job` removes the
registry slot without modifying the job). -/
def runSnaps (prog : List ProgEv) (res : Except DlError DownloadResult) : List JobView :=
  jobInit :: midSnaps jobStarted prog ++ [finalize (afterProg jobStarted prog) res]

/-- The full snapshot timeline of the job created by `start_download url`
when `download_url` runs against collaborators `env` and filesystem state
`s` (hash function `h`). -/
def jobTrace (h : String → String) (env : Env) (url : String) (s : CacheSt) : List JobView :=
  runSnaps (download_url h env url s).prog (download_url h env url s).res

/-! ### Dictionary and file-list lemmas -/

theorem jGet_jDel (l : List (String × JVal)) (k : String) : jGet (jDel l k) k = none := by
  induction l with
  | nil => rfl
  | cons a as ih =>
    by_cases ha : a.1 = k
    · simpa [jDel, List.filter_cons, ha] using ih
    · simp [jDel, List.filter_cons, ha, jGet, List.find?_cons] at ih ⊢
      simpa [jGet, jDel, ha] using ih

theorem find?_map_jSet (l : List (String × JVal)) (k : String) (v : JVal)
    (hl : l.any (fun kv => kv.1 = k) = true) :
    List.find? (fun kv => kv.1 = k)
      (l.map (fun kv => if kv.1 = k then (k, v) else kv)) = some (k, v) := by
  induction l with
  | nil => simp at hl
  | cons a as ih =>
    by_cases ha : a.1 = k
    · simp [List.find?_cons, ha]
    · simp only [List.any_cons, Bool.or_eq_true, decide_eq_true_eq] at hl
      rcases hl with hl | hl
      · exact absurd hl ha
      · simpa [List.find?_cons, ha] using ih (by simpa using hl)

theorem jGet_jSet (l : List (String × JVal)) (k : String) (v : JVal) :
    jGet (jSet l k v) k = some v := by
  unfold jSet jGet
  by_cases hl : l.any (fun kv => kv.1 = k) = true
  · rw [if_pos hl, find?_map_jSet l k v hl]
  · rw [if_neg hl]
    have hnone : List.find? (fun kv => kv.1 = k) l = none := by
      rw [List.find?_eq_none]
      intro a ha
      simp only [List.any_eq_true, decide_eq_true_eq] at hl
      simpa using fun h => hl ⟨a, ha, h⟩
    rw [List.find?_append, hnone]
    simp [List.find?_cons]

theorem mem_addFile (n : String) (fs : List String) : n ∈ addFile n fs := by
  unfold addFile
  by_cases hn : n ∈ fs
  · simp [hn]
  · simp [hn]

theorem addFile_subset {m : String} (n : String) (fs : List String) (hm : m ∈ fs) :
    m ∈ addFile n fs := by
  unfold addFile
  by_cases hn : n ∈ fs <;> simp [hn, hm]

/-! ### `get_cached` on well-formed states -/

/-- Cache hit: the entry is present with well-typed fields and its file
exists.  `get_cached` returns it and performs no write. -/
theorem get_cached_hit (h : String → String) (url : String) (s : CacheSt)
    (l : List (String × JVal)) (el : List (String × JVal))
    (fn t u : String) (d : ℚ)
    (hidx : s.indexFile = .valid (.obj l))
    (hent : jGet l (url_hash h url) = some (.obj el))
    (hfn : jGet el "filename" = some (.str fn))
    (hfile : fn ∈ s.files)
    (ht : jGet el "title" = some (.str t))
    (hd : jGet el "duration" = some (.num d))
    (hu : jGet el "url" = some (.str u)) :
    get_cached h url s = (.ok (some ⟨fn, t, d, u⟩), s) := by
  unfold get_cached
  rw [hidx]
  simp only [load_cache_index]
  simp [hent, hfn, hfile, ht, hd, hu]

/-- The state written by `storeIndex` yields a cache hit for the stored
entry. -/
theorem get_cached_after_store (h : String → String) (url : String) (s : CacheSt)
    (l : List (String × JVal)) (title name : String) (d : ℚ)
    (hidx : s.indexFile = .valid (.obj (jSet l (url_hash h url) (cacheEntry url title d name))))
    (hfile : name ∈ s.files) :
    get_cached h url s = (.ok (some ⟨name, title, d, url⟩), s) := by
  refine get_cached_hit h url s (jSet l (url_hash h url) (cacheEntry url title d name))
    [("url", .str url), ("title", .str title), ("duration", .num d), ("filename", .str name)]
    name title url d hidx ?_ rfl hfile rfl rfl rfl
  exact jGet_jSet l (url_hash h url) (cacheEntry url title d name)

/-! ### Claims C5, C6, C10 -/

/-- C5 (counterexample): the claim "get_cached never fails with an error"
is false as stated: an `index.json` that parses as JSON but whose entry
for the looked-up key lacks the `filename` field makes `get_cached` raise
`KeyError` (line 181 `entry["filename"]`), not degrade to a miss. -/
theorem c5_lookup_raises_on_malformed_entry :
    (get_cached (fun _ => "0123456789abcdef0123456789abcdef") "http://x"
      ⟨.valid (.obj [("0123456789abcdef", .obj [])]), []⟩).1
      = .error .keyError := by
  rfl

/-- C5 (amended): a missing, unreadable, or syntactically invalid (not
parseable as JSON) `index.json` degrades to a cache miss with no state
change and no raised error; a parseable index with a malformed entry may
still raise. -/
theorem c5_lookup_never_fails_on_unparseable_index
    (h : String → String) (url : String) (f : IndexFile) (files : List String)
    (hf : f = .missing ∨ f = .unreadable ∨ f = .invalid) :
    get_cached h url ⟨f, files⟩ = (.ok none, ⟨f, files⟩) := by
  rcases hf with hf | hf | hf <;> subst hf <;> rfl

/-- C5 witness: the amended theorem at a concrete unreadable index. -/
theorem c5_lookup_never_fails_witness :
    get_cached (fun _ => "k") "http://x" ⟨.unreadable, ["a.mp3"]⟩
      = (.ok none, ⟨.unreadable, ["a.mp3"]⟩) :=
  c5_lookup_never_fails_on_unparseable_index (fun _ => "k") "http://x" .unreadable
    ["a.mp3"] (Or.inr (Or.inl rfl))

/-- C6: self-healing eviction.  If the index has an entry for the URL's
cache key but the referenced file does not exist, the lookup reports a
miss, and the index persisted by the time it returns no longer contains
the key. -/
theorem c6_cache_self_healing
    (h : String → String) (url : String) (s : CacheSt)
    (l el : List (String × JVal)) (fn : String)
    (hidx : s.indexFile = .valid (.obj l))
    (hent : jGet l (url_hash h url) = some (.obj el))
    (hfn : jGet el "filename" = some (.str fn))
    (hfile : fn ∉ s.files) :
    get_cached h url s
        = (.ok none, { s with indexFile := .valid (.obj (jDel l (url_hash h url))) })
      ∧ jGet (jDel l (url_hash h url)) (url_hash h url) = none := by
  constructor
  · unfold get_cached
    rw [hidx]
    simp only [load_cache_index]
    simp [hent, hfn, hfile]
  · exact jGet_jDel l (url_hash h url)

/-- C6 witness: a concrete stale entry is evicted. -/
theorem c6_cache_self_healing_witness :
    get_cached (fun _ => "kkkkkkkkkkkkkkkk") "http://x"
        ⟨.valid (.obj [("kkkkkkkkkkkkkkkk", cacheEntry "http://x" "T" 5 "gone.mp3")]), []⟩
      = (.ok none, ⟨.valid (.obj []), []⟩)
      ∧ jGet (jDel [("kkkkkkkkkkkkkkkk", cacheEntry "http://x" "T" 5 "gone.mp3")]
          "kkkkkkkkkkkkkkkk") "kkkkkkkkkkkkkkkk" = none := by
  have := c6_cache_self_healing (fun _ => "kkkkkkkkkkkkkkkk") "http://x"
    ⟨.valid (.obj [("kkkkkkkkkkkkkkkk", cacheEntry "http://x" "T" 5 "gone.mp3")]), []⟩
    [("kkkkkkkkkkkkkkkk", cacheEntry "http://x" "T" 5 "gone.mp3")]
    [("url", .str "http://x"), ("title", .str "T"), ("duration", .num 5),
      ("filename", .str "gone.mp3")]
    "gone.mp3" rfl rfl rfl (by simp)
  simpa using this

/-- C10: a cache hit performs no write: neither the index file nor the
cache directory contents change, in `get_cached` itself and on the
cache-hit path of `download_url` (which returns before `mkdir` and makes
no network call). -/
theorem c10_cache_hit_no_write
    (h : String → String) (env : Env) (url : String) (s : CacheSt)
    (l el : List (String × JVal)) (fn t u : String) (d : ℚ)
    (hidx : s.indexFile = .valid (.obj l))
    (hent : jGet l (url_hash h url) = some (.obj el))
    (hfn : jGet el "filename" = some (.str fn))
    (hfile : fn ∈ s.files)
    (ht : jGet el "title" = some (.str t))
    (hd : jGet el "duration" = some (.num d))
    (hu : jGet el "url" = some (.str u)) :
    get_cached h url s = (.ok (some ⟨fn, t, d, u⟩), s)
      ∧ download_url h env url s = ⟨.ok ⟨fn, t, d, u⟩, s, [], [(100, .usingCached t)]⟩ := by
  have hg := get_cached_hit h url s l el fn t u d hidx hent hfn hfile ht hd hu
  refine ⟨hg, ?_⟩
  unfold download_url
  rw [hg]

/-- C10 witness: a concrete cache hit leaves the state untouched. -/
theorem c10_cache_hit_no_write_witness :
    get_cached (fun _ => "kkkkkkkkkkkkkkkk") "http://x"
        ⟨.valid (.obj [("kkkkkkkkkkkkkkkk", cacheEntry "http://x" "T" 5 "t.mp3")]), ["t.mp3"]⟩
      = (.ok (some ⟨"t.mp3", "T", 5, "http://x"⟩),
          ⟨.valid (.obj [("kkkkkkkkkkkkkkkk", cacheEntry "http://x" "T" 5 "t.mp3")]), ["t.mp3"]⟩) := by
  have := c10_cache_hit_no_write (fun _ => "kkkkkkkkkkkkkkkk")
    { isAudio := false, transform := .error (), direct := .ok (), contentLength := 0,
      chunks := [], probeDirect := none, pageTitle := none, yt := .error (), hooks := [],
      probeFallback := none }
    "http://x"
    ⟨.valid (.obj [("kkkkkkkkkkkkkkkk", cacheEntry "http://x" "T" 5 "t.mp3")]), ["t.mp3"]⟩
    [("kkkkkkkkkkkkkkkk", cacheEntry "http://x" "T" 5 "t.mp3")]
    [("url", .str "http://x"), ("title", .str "T"), ("duration", .num 5),
      ("filename", .str "t.mp3")]
    "t.mp3" "T" "http://x" 5 rfl rfl rfl (by simp) rfl rfl rfl
  exact this.1

/-! ### Lemmas about `rstripP`, `dropWhile` and `collapseRuns` -/

theorem rstripP_append (p : Char → Bool) (l : List Char) :
    ∃ t, rstripP p l ++ t = l ∧ ∀ c ∈ t, p c = true := by
  induction l with
  | nil => exact ⟨[], rfl, by simp⟩
  | cons c cs ih =>
    obtain ⟨t, ht, hall⟩ := ih
    cases hr : rstripP p cs with
    | nil =>
      rw [hr] at ht
      simp only [List.nil_append] at ht
      subst ht
      by_cases hc : p c = true
      · exact ⟨c :: t, by simp [rstripP, hr, hc], by
          intro x hx
          rcases List.mem_cons.mp hx with hx | hx
          · exact hx ▸ hc
          · exact hall x hx⟩
      · refine ⟨t, ?_, hall⟩
        simp [rstripP, hr, hc]
    | cons x xs =>
      refine ⟨t, ?_, hall⟩
      have hstep : rstripP p (c :: cs) = c :: (x :: xs) := by
        simp only [rstripP, hr]
      rw [hstep, ← ht, hr]
      rfl

theorem rstripP_getLast (p : Char → Bool) (l : List Char) (c : Char)
    (h : (rstripP p l).getLast? = some c) : p c = false := by
  induction l with
  | nil => simp [rstripP] at h
  | cons a as ih =>
    cases hr : rstripP p as with
    | nil =>
      rw [rstripP, hr] at h
      by_cases ha : p a = true
      · simp [ha] at h
      · simp [ha] at h
        simp [← h]
        exact Bool.not_eq_true _ ▸ ha
    | cons x xs =>
      rw [rstripP, hr] at h
      simp only [List.getLast?_cons_cons] at h
      exact ih (hr ▸ h)

theorem head?_dropWhile (p : Char → Bool) (l : List Char) (c : Char)
    (h : (l.dropWhile p).head? = some c) : p c = false := by
  induction l with
  | nil => simp at h
  | cons a as ih =>
    by_cases ha : p a = true
    · rw [List.dropWhile_cons_of_pos ha] at h
      exact ih h
    · rw [List.dropWhile_cons_of_neg ha] at h
      simp only [List.head?_cons, Option.some.injEq] at h
      subst h
      exact Bool.not_eq_true _ ▸ ha

theorem mem_collapseRuns {c : Char} :
    ∀ (b : Bool) (l : List Char), c ∈ collapseRuns b l → c = '_' ∨ c ∈ l := by
  intro b l
  induction l generalizing b with
  | nil => simp [collapseRuns]
  | cons a as ih =>
    intro hmem
    by_cases ha : runChar a = true
    · rcases b with _ | _
      · simp only [collapseRuns, ha, if_true] at hmem
        rcases List.mem_cons.mp hmem with hc | hc
        · exact Or.inl hc
        · rcases ih true hc with hc | hc
          · exact Or.inl hc
          · exact Or.inr (List.mem_cons_of_mem a hc)
      · simp only [collapseRuns, ha, if_true] at hmem
        rcases ih true hmem with hc | hc
        · exact Or.inl hc
        · exact Or.inr (List.mem_cons_of_mem a hc)
    · simp only [collapseRuns, ha, if_false, Bool.false_eq_true] at hmem
      rcases List.mem_cons.mp hmem with hc | hc
      · exact Or.inr (hc ▸ List.mem_cons_self a as)
      · rcases ih false hc with hc | hc
        · exact Or.inl hc
        · exact Or.inr (List.mem_cons_of_mem a hc)

/-! ### Claim C8 -/

/-- Does the string end with a `/`? -/
def endsSlash (s : String) : Bool :=
  match s.data.getLast? with
  | some c => c = '/'
  | none => false

/-- Modelled from the spec's words ("strips a single trailing slash"):
the same normalization pipeline, but with at most one trailing `/`
removed at the end, for comparison with the source's `rstrip('/')`. -/
def normalizeSpecSingleSlash (url : String) : String :=
  let l1 := stripTrackF url.data.length url.data
  let l2 := reSubLitF ["www.youtu.be/".data, "youtu.be/".data]
    "youtube.com/watch?v=".data l1.length l1
  let l3 := reSubLitF ["www.youtube.com/shorts/".data, "youtube.com/shorts/".data]
    "youtube.com/watch?v=".data l2.length l2
  match l3.getLast? with
  | some '/' => ⟨l3.dropLast⟩
  | _ => ⟨l3⟩

/-- C8 (counterexample): `normalize_url` does not strip a *single*
trailing slash: `url.rstrip('/')` (line 93) strips every trailing slash,
so on `https://example.com//` it differs from the spec's description. -/
theorem c8_not_single_slash :
    (normalize_url "https://example.com//" = normalizeSpecSingleSlash "https://example.com//") = False
      ∧ normalize_url "https://example.com//" = "https://example.com"
      ∧ normalizeSpecSingleSlash "https://example.com//" = "https://example.com/" :=
  ⟨eq_false (by decide), by decide, by decide⟩

/-- C8 (amended): `normalize_url` is a pure deterministic function that
rewrites the `youtu.be` short-link and `youtube.com/shorts` URL forms
(with optional `www.`) to the canonical `youtube.com/watch?v=` form and
strips *all* trailing slashes: its output never ends in `/`. -/
theorem c8_normalize_rewrites_and_strips_all :
    (∀ url : String, endsSlash (normalize_url url) = false)
      ∧ normalize_url "https://youtu.be/abc" = "https://youtube.com/watch?v=abc"
      ∧ normalize_url "https://www.youtu.be/abc" = "https://youtube.com/watch?v=abc"
      ∧ normalize_url "https://www.youtube.com/shorts/abc/" = "https://youtube.com/watch?v=abc" := by
  refine ⟨?_, by decide, by decide, by decide⟩
  intro url
  unfold normalize_url endsSlash
  cases hg : (rstripP (fun c => c = '/')
      (reSubLitF ["www.youtube.com/shorts/".data, "youtube.com/shorts/".data]
        "youtube.com/watch?v=".data
        (reSubLitF ["www.youtu.be/".data, "youtu.be/".data] "youtube.com/watch?v=".data
          (stripTrackF url.data.length url.data).length
          (stripTrackF url.data.length url.data)).length
        (reSubLitF ["www.youtu.be/".data, "youtu.be/".data] "youtube.com/watch?v=".data
          (stripTrackF url.data.length url.data).length
          (stripTrackF url.data.length url.data)))).getLast? with
  | none => simp
  | some c =>
    simp only [hg]
    exact rstripP_getLast _ _ c hg

/-! ### Claim C9 -/

/-- The characters the claim says never appear in a safe filename:
`/ : ? " < > | \` and control characters (C0 controls, U+0000-U+001F,
the range the source's character class covers). -/
def c9Bad (c : Char) : Bool :=
  c = '/' || c = ':' || c = '?' || c = '"' || c = '<' || c = '>' ||
    c = '|' || c = '\\' || c.toNat < 32

/-- Is the first character in the strip class (`_` or `.`)? -/
def headStrip (l : List Char) : Bool :=
  match l.head? with
  | some c => stripChar c
  | none => false

/-- Is the last character in the strip class (`_` or `.`)? -/
def lastStrip (l : List Char) : Bool :=
  match l.getLast? with
  | some c => stripChar c
  | none => false

theorem c9Bad_imp_unsafeChar {c : Char} (hc : c9Bad c = true) : unsafeChar c = true := by
  simp only [c9Bad, Bool.or_eq_true, decide_eq_true_eq] at hc
  simp only [unsafeChar, Bool.or_eq_true, decide_eq_true_eq]
  tauto

/-- C9 (counterexample): the claim "safe_filename returns a string of
length at most maxLength for every title and maxLength" is false: the
empty cleaned result falls back to the fixed placeholder `untitled`
(length 8) even when `maxLength < 8`. -/
theorem c9_untitled_exceeds_maxLength :
    safe_filename "" 3 = "untitled" ∧ ((safe_filename "" 3).length ≤ 3) = False :=
  ⟨by decide, eq_false (by decide)⟩
theorem head?_append_left {α : Type} {a t : List α} {c : α}
    (h : a.head? = some c) : (a ++ t).head? = some c := by
  cases a <;> simp_all

theorem head?_take {α : Type} {n : Nat} {l : List α} {c : α}
    (h : (l.take n).head? = some c) : l.head? = some c := by
  cases l <;> cases n <;> simp_all

theorem rstripP_length (p : Char → Bool) (l : List Char) :
    (rstripP p l).length ≤ l.length := by
  obtain ⟨t, ht, -⟩ := rstripP_append p l
  calc (rstripP p l).length ≤ (rstripP p l).length + t.length := Nat.le_add_right _ _
    _ = (rstripP p l ++ t).length := (List.length_append _ _).symm
    _ = l.length := by rw [ht]

theorem rstripP_head? (p : Char → Bool) (l : List Char) (c : Char)
    (h : (rstripP p l).head? = some c) : l.head? = some c := by
  obtain ⟨t, ht, -⟩ := rstripP_append p l
  exact ht ▸ head?_append_left h

/-- C9 (amended): for every title and maxLength, `safe_filename` returns
a string with none of `/ : ? " < > | \` and no control character, with no
leading or trailing underscore or dot, and of length at most `maxLength`
except that the fixed fallback `"untitled"` (length 8) is returned
whenever the cleaned result is empty, even when `maxLength < 8`.  In
particular `safe_filename "My / Bad: Title???" 100 = "My_Bad_Title"`. -/
theorem c9_safe_filename_shape (title : String) (maxLength : Nat) :
    (safe_filename title maxLength).data.all (fun c => !c9Bad c) = true
      ∧ headStrip (safe_filename title maxLength).data = false
      ∧ lastStrip (safe_filename title maxLength).data = false
      ∧ (safe_filename title maxLength = "untitled"
          ∨ (safe_filename title maxLength).length ≤ maxLength)
      ∧ safe_filename "My / Bad: Title???" 100 = "My_Bad_Title" := by
  have hex : safe_filename "My / Bad: Title???" 100 = "My_Bad_Title" := by decide
  unfold safe_filename
  simp only
  generalize hs1 : title.data.map (fun c => if unsafeChar c then '_' else c) = s1
  generalize hs2 : collapseRuns false s1 = s2
  generalize hs3 : rstripP stripChar (s2.dropWhile stripChar) = s3
  generalize hs4 :
    (if s3.length > maxLength then rstripP stripChar (s3.take maxLength) else s3) = s4
  have hmem1 : ∀ c ∈ s1, unsafeChar c = false := by
    intro c hc
    rw [← hs1] at hc
    obtain ⟨a, _, ha⟩ := List.mem_map.mp hc
    by_cases hu : unsafeChar a = true
    · rw [if_pos hu] at ha
      subst ha
      decide
    · rw [if_neg hu] at ha
      subst ha
      exact Bool.not_eq_true _ ▸ hu
  have hmem3 : ∀ c ∈ s3, unsafeChar c = false := by
    intro c hc
    rw [← hs3] at hc
    obtain ⟨t, ht, -⟩ := rstripP_append stripChar (s2.dropWhile stripChar)
    have hc2 : c ∈ s2.dropWhile stripChar := ht ▸ List.mem_append_left t hc
    have hc2' : c ∈ s2 := (List.dropWhile_sublist stripChar).mem hc2
    rw [← hs2] at hc2'
    rcases mem_collapseRuns false s1 hc2' with hc1 | hc1
    · subst hc1; decide
    · exact hmem1 c hc1
  have hmem4 : ∀ c ∈ s4, unsafeChar c = false := by
    intro c hc
    rw [← hs4] at hc
    by_cases hlen : s3.length > maxLength
    · rw [if_pos hlen] at hc
      obtain ⟨t, ht, -⟩ := rstripP_append stripChar (s3.take maxLength)
      have := ht ▸ List.mem_append_left t hc
      exact hmem3 c ((List.take_sublist maxLength s3).mem this)
    · rw [if_neg hlen] at hc
      exact hmem3 c hc
  have hhead : ∀ c, s4.head? = some c → stripChar c = false := by
    intro c hc
    have hc3 : s3.head? = some c := by
      rw [← hs4] at hc
      by_cases hlen : s3.length > maxLength
      · rw [if_pos hlen] at hc
        exact head?_take (rstripP_head? stripChar (s3.take maxLength) c hc)
      · rwa [if_neg hlen] at hc
    rw [← hs3] at hc3
    exact head?_dropWhile stripChar s2 c
      (rstripP_head? stripChar (s2.dropWhile stripChar) c hc3)
  have hlast : ∀ c, s4.getLast? = some c → stripChar c = false := by
    intro c hc
    rw [← hs4] at hc
    by_cases hlen : s3.length > maxLength
    · rw [if_pos hlen] at hc
      exact rstripP_getLast stripChar (s3.take maxLength) c hc
    · rw [if_neg hlen, ← hs3] at hc
      exact rstripP_getLast stripChar (s2.dropWhile stripChar) c hc
  have hlen4 : s4.length ≤ maxLength ∨ s4 = s3 ∧ ¬(s3.length > maxLength) := by
    rw [← hs4]
    by_cases hlen : s3.length > maxLength
    · rw [if_pos hlen]
      left
      exact (rstripP_length stripChar (s3.take maxLength)).trans (by simp)
    · rw [if_neg hlen]
      exact Or.inr ⟨rfl, hlen⟩
  by_cases hempty : s4.isEmpty = true
  · rw [if_pos hempty]
    exact ⟨by decide, by decide, by decide, Or.inl rfl, hex⟩
  · rw [if_neg hempty]
    have hne : s4 ≠ [] := by
      intro hnil
      rw [hnil] at hempty
      simp at hempty
    refine ⟨?_, ?_, ?_, ?_, hex⟩
    · rw [List.all_eq_true]
      intro c hc
      have := hmem4 c hc
      by_cases hb : c9Bad c = true
      · rw [c9Bad_imp_unsafeChar hb] at this; cases this
      · simpa using Bool.not_eq_true _ ▸ hb
    · cases hh : s4.head? with
      | none => rw [List.head?_eq_none_iff] at hh; exact absurd hh hne
      | some c => simp only [headStrip, hh]; exact hhead c hh
    · cases hh : s4.getLast? with
      | none => rw [List.getLast?_eq_none_iff] at hh; exact absurd hh hne
      | some c => simp only [lastStrip, hh]; exact hlast c hh
    · right
      show s4.length ≤ maxLength
      rcases hlen4 with hl | ⟨heq, hl⟩
      · exact hl
      · rw [heq]; exact Nat.le_of_not_lt hl

/-! ### Success characterization for `download_url` (for claims C2, C3) -/

/-- A cache hit never changes the state. -/
theorem get_cached_hit_state (h : String → String) (url : String) (s s₁ : CacheSt)
    (c : DownloadResult) (hg : get_cached h url s = (.ok (some c), s₁)) : s₁ = s := by
  unfold get_cached at hg
  dsimp only [] at hg
  split at hg
  · split at hg
    · simp at hg
    · split at hg
      · split at hg
        · split at hg
          · split at hg
            · exact ((Prod.mk.injEq ..).mp hg).2.symm
            · simp at hg
          · simp at hg
        · simp at hg
        · simp at hg
      · simp at hg
  · split at hg <;> simp at hg
  · split at hg <;> simp at hg
  · simp at hg

/-- On a cache hit `download_url` returns the cached result immediately:
the state is untouched, no network collaborator is invoked, and the only
progress event is the 100% "Using cached" report. -/
theorem download_url_hit (h : String → String) (env : Env) (url : String)
    (s s' : CacheSt) (c : DownloadResult)
    (hg : get_cached h url s = (.ok (some c), s')) :
    download_url h env url s = ⟨.ok c, s', [], [(100, .usingCached c.title)]⟩ := by
  unfold download_url
  rw [hg]

theorem storeIndex_ok {key url title name : String} {d : ℚ} {s s' : CacheSt}
    (hs : storeIndex key url title d name s = .ok s') :
    ∃ l, load_cache_index s.indexFile = .obj l
      ∧ s' = { s with indexFile := .valid (.obj (jSet l key (cacheEntry url title d name))) } := by
  unfold storeIndex at hs
  split at hs
  · next l hl => exact ⟨l, hl, (Except.ok.injEq .. ▸ hs).symm⟩
  · simp at hs

/-- A successful direct-strategy resolution leaves a state in which the
same URL is a cache hit returning exactly the stored result. -/
theorem directPath_ok (h : String → String) (env : Env) (url du : String)
    (s : CacheSt) (net : List NetEv) (prog : List ProgEv)
    (r : DownloadResult) (s' : CacheSt) (net' : List NetEv) (prog' : List ProgEv)
    (hd : directPath h env url du s net prog = ⟨.ok r, s', net', prog'⟩) :
    get_cached h url s' = (.ok (some r), s') := by
  unfold directPath at hd
  dsimp only [] at hd
  split at hd
  · simp at hd
  · split at hd
    · simp at hd
    · split at hd
      · simp at hd
      · next s'' hstore =>
        obtain ⟨l, hload, hs''⟩ := storeIndex_ok hstore
        simp only [DlOut.mk.injEq, Except.ok.injEq] at hd
        obtain ⟨hr, hst, -, -⟩ := hd
        subst hst
        subst hr
        refine get_cached_after_store h url s'' l _ _ _ ?_ ?_
        · rw [hs'']
        · rw [hs'']
          exact mem_addFile _ _

theorem find?_pred {α : Type} (p : α → Bool) (l : List α) (a : α)
    (hf : l.find? p = some a) : p a = true := by
  induction l with
  | nil => simp at hf
  | cons x xs ih =>
    rw [List.find?_cons] at hf
    split at hf
    · cases hf
      assumption
    · exact ih hf

/-- A successful fallback-strategy resolution leaves a state in which the
same URL is a cache hit returning exactly the stored result. -/
theorem fallbackPath_ok (h : String → String) (env : Env) (url : String)
    (s : CacheSt) (net : List NetEv) (prog : List ProgEv)
    (r : DownloadResult) (s' : CacheSt) (net' : List NetEv) (prog' : List ProgEv)
    (hd : fallbackPath h env url s net prog = ⟨.ok r, s', net', prog'⟩) :
    get_cached h url s' = (.ok (some r), s') := by
  unfold fallbackPath at hd
  dsimp only [] at hd
  split at hd
  · simp at hd
  · next info hyt =>
    split at hd
    · simp at hd
    · next e hfind =>
      have hp := find?_pred _ _ _ hfind
      have hmem : (url_hash h url ++ "." ++ e) ∈ ytFiles h url info s.files := by
        simpa using hp
      split at hd
      · simp at hd
      · split at hd
        · simp at hd
        · next s'' hstore =>
          obtain ⟨l, hload, hs''⟩ := storeIndex_ok hstore
          simp only [DlOut.mk.injEq, Except.ok.injEq] at hd
          obtain ⟨hr, hst, -, -⟩ := hd
          subst hst
          subst hr
          refine get_cached_after_store h url s'' l _ _ _ ?_ ?_
          · rw [hs'']
          · rw [hs'']
            exact hmem

/-- C2: idempotence.  If a `download_url` call for `url` succeeded
(returning result `r` and leaving state `s'`), then a second call with
the same URL and cache directory — against *any* collaborator behaviour
`env₂` — hits the cache: it returns a result with identical title,
duration and filepath (indeed the identical `DownloadResult`), leaves the
state unchanged, makes no network collaborator call (no transformer call,
direct download, page fetch, or extractor invocation), and only reports
the 100% "Using cached" progress event. -/
theorem c2_second_resolution_hits_cache
    (h : String → String) (env env₂ : Env) (url : String) (s : CacheSt)
    (r : DownloadResult) (s' : CacheSt) (net : List NetEv) (prog : List ProgEv)
    (hfirst : download_url h env url s = ⟨.ok r, s', net, prog⟩) :
    download_url h env₂ url s' = ⟨.ok r, s', [], [(100, .usingCached r.title)]⟩ := by
  unfold download_url at hfirst
  dsimp only [] at hfirst
  split at hfirst
  · simp at hfirst
  · next c s₁ heq =>
    simp only [DlOut.mk.injEq, Except.ok.injEq] at hfirst
    obtain ⟨hr, hst, -, -⟩ := hfirst
    have hstate : s₁ = s := get_cached_hit_state h url s s₁ c heq
    have hss : s' = s := hst ▸ hstate
    have heq' : get_cached h url s' = (.ok (some r), s') := by
      rw [hss, heq, hr, hstate]
    exact download_url_hit h env₂ url s' s' r heq'
  · next s₁ heq =>
    split at hfirst
    · next du hdu =>
      exact download_url_hit h env₂ url s' s' r
        (directPath_ok h env url du s₁ _ _ r s' net prog hfirst)
    · exact download_url_hit h env₂ url s' s' r
        (fallbackPath_ok h env url s₁ _ _ r s' net prog hfirst)

/-- C2 witness: a concrete fallback-strategy success on an empty cache
followed by a second call (against a collaborator environment that would
fail if consulted) that hits the cache. -/
theorem c2_second_resolution_witness :
    download_url (fun _ => "0123456789abcdef")
        { isAudio := false, transform := .error (), direct := .error (), contentLength := 0,
          chunks := [], probeDirect := none, pageTitle := none, yt := .error (), hooks := [],
          probeFallback := none }
        "https://youtube.com/watch?v=x"
        ⟨.valid (.obj [("0123456789abcdef",
            cacheEntry "https://youtube.com/watch?v=x" "T" 5 "0123456789abcdef.mp3")]),
          ["0123456789abcdef.mp3"]⟩
      = ⟨.ok ⟨"0123456789abcdef.mp3", "T", 5, "https://youtube.com/watch?v=x"⟩,
          ⟨.valid (.obj [("0123456789abcdef",
              cacheEntry "https://youtube.com/watch?v=x" "T" 5 "0123456789abcdef.mp3")]),
            ["0123456789abcdef.mp3"]⟩,
          [], [(100, .usingCached "T")]⟩ :=
  c2_second_resolution_hits_cache (fun _ => "0123456789abcdef")
    { isAudio := false, transform := .error (), direct := .ok (), contentLength := 0,
      chunks := [], probeDirect := none, pageTitle := none,
      yt := .ok ⟨some "T", some 5, ["mp3"]⟩, hooks := [], probeFallback := none }
    { isAudio := false, transform := .error (), direct := .error (), contentLength := 0,
      chunks := [], probeDirect := none, pageTitle := none, yt := .error (), hooks := [],
      probeFallback := none }
    "https://youtube.com/watch?v=x" ⟨.missing, []⟩
    ⟨"0123456789abcdef.mp3", "T", 5, "https://youtube.com/watch?v=x"⟩
    ⟨.valid (.obj [("0123456789abcdef",
        cacheEntry "https://youtube.com/watch?v=x" "T" 5 "0123456789abcdef.mp3")]),
      ["0123456789abcdef.mp3"]⟩
    [.extractorCall] [(100, .complete "T")] (by rfl)

/-! ### Claim C3: short-file rejection -/

theorem not_mem_removeFile (n : String) (fs : List String) : n ∉ removeFile n fs := by
  unfold removeFile
  intro hmem
  have := List.mem_filter.mp hmem
  simp at this

/-- The last job snapshot is always the terminal write of `run`. -/
theorem runSnaps_getLast (prog : List ProgEv) (res : Except DlError DownloadResult) :
    (runSnaps prog res).getLast? = some (finalize (afterProg jobStarted prog) res) := by
  unfold runSnaps
  exact List.getLast?_concat _

/-- A raised error in `download_url` makes the job terminate in FAILED. -/
theorem jobTrace_failed (h : String → String) (env : Env) (url : String) (s : CacheSt)
    (e : DlError) (hres : (download_url h env url s).res = .error e) :
    ((jobTrace h env url s).getLast?).map JobView.status = some .FAILED := by
  unfold jobTrace
  rw [hres, runSnaps_getLast]
  rfl

/-- On a cache miss with a resolved direct URL, `download_url` runs the
direct strategy. -/
theorem download_url_miss_direct (h : String → String) (env : Env) (url du : String)
    (s s₁ : CacheSt) (hmiss : get_cached h url s = (.ok none, s₁))
    (hdu : directUrlOf env url = some du) :
    download_url h env url s
      = directPath h env url du s₁
          (if transformTried env url then [.transformCall] else [])
          (if transformTried env url then [(0, .resolving)] else []) := by
  unfold download_url
  simp only [hmiss]
  simp only [hdu]

/-- On a cache miss with no direct URL, `download_url` runs the fallback
strategy. -/
theorem download_url_miss_fallback (h : String → String) (env : Env) (url : String)
    (s s₁ : CacheSt) (hmiss : get_cached h url s = (.ok none, s₁))
    (hdu : directUrlOf env url = none) :
    download_url h env url s
      = fallbackPath h env url s₁
          (if transformTried env url then [.transformCall] else [])
          (if transformTried env url then [(0, .resolving)] else []) := by
  unfold download_url
  simp only [hmiss]
  simp only [hdu]

/-- Direct strategy with a too-short (or unmeasurable) file: the file is
deleted and `ValueError` raised. -/
theorem directPath_tooShort (h : String → String) (env : Env) (url du : String)
    (s : CacheSt) (net : List NetEv) (prog : List ProgEv)
    (hdirect : env.direct = .ok ())
    (hshort : (env.probeDirect).getD 0 < 1) :
    directPath h env url du s net prog
      = ⟨.error (.tooShort ((env.probeDirect).getD 0)),
          ⟨s.indexFile, removeFile (directName h url du) (addFile (directName h url du) s.files)⟩,
          net ++ [.directFetch],
          prog ++ chunkEvents env.contentLength 0 env.chunks ++ [(100, .downloadComplete)]⟩ := by
  unfold directPath
  simp only [hdirect, if_pos hshort]

/-- Fallback strategy with a too-short (or unmeasurable) file: the file
is deleted and `ValueError` raised. -/
theorem fallbackPath_tooShort (h : String → String) (env : Env) (url : String)
    (s : CacheSt) (net : List NetEv) (prog : List ProgEv) (info : YtInfo) (e : String)
    (hyt : env.yt = .ok info)
    (hfind : extProbe.find?
        (fun e' => decide ((url_hash h url ++ "." ++ e') ∈ ytFiles h url info s.files))
      = some e)
    (hshort : fallbackDuration env info < 1) :
    fallbackPath h env url s net prog
      = ⟨.error (.tooShort (fallbackDuration env info)),
          ⟨s.indexFile, removeFile (url_hash h url ++ "." ++ e) (ytFiles h url info s.files)⟩,
          net ++ [.extractorCall], prog ++ hookEvents env.hooks⟩ := by
  unfold fallbackPath
  simp only [hyt]
  simp only [hfind, if_pos hshort]

/-- C3: short-file rejection.  On a cache miss, whichever strategy
resolves the download, if the duration the code computes for the produced
file is below 1 second (`MIN_DURATION_SECONDS`) — including a failed
duration probe, which counts as duration 0 — then `download_url` raises
the "Audio too short" error, the produced file has been deleted from the
cache directory by the time it returns, and the job terminates in
FAILED. -/
theorem c3_short_audio_rejected
    (h : String → String) (env : Env) (url : String) (s s₁ : CacheSt)
    (hmiss : get_cached h url s = (.ok none, s₁)) :
    (∀ du, directUrlOf env url = some du → env.direct = .ok () →
        (env.probeDirect).getD 0 < 1 →
        (download_url h env url s).res = .error (.tooShort ((env.probeDirect).getD 0))
          ∧ directName h url du ∉ (download_url h env url s).state.files
          ∧ ((jobTrace h env url s).getLast?).map JobView.status = some .FAILED)
      ∧ (directUrlOf env url = none → ∀ info, env.yt = .ok info →
          ∀ e, extProbe.find?
              (fun e' => decide ((url_hash h url ++ "." ++ e') ∈ ytFiles h url info s₁.files))
            = some e →
          fallbackDuration env info < 1 →
          (download_url h env url s).res = .error (.tooShort (fallbackDuration env info))
            ∧ (url_hash h url ++ "." ++ e) ∉ (download_url h env url s).state.files
            ∧ ((jobTrace h env url s).getLast?).map JobView.status = some .FAILED) := by
  constructor
  · intro du hdu hdirect hshort
    have hout := (download_url_miss_direct h env url du s s₁ hmiss hdu).trans
      (directPath_tooShort h env url du s₁ _ _ hdirect hshort)
    refine ⟨by rw [hout], by rw [hout]; exact not_mem_removeFile _ _, ?_⟩
    exact jobTrace_failed h env url s _ (by rw [hout])
  · intro hdu info hyt e hfind hshort
    have hout := (download_url_miss_fallback h env url s s₁ hmiss hdu).trans
      (fallbackPath_tooShort h env url s₁ _ _ info e hyt hfind hshort)
    refine ⟨by rw [hout], by rw [hout]; exact not_mem_removeFile _ _, ?_⟩
    exact jobTrace_failed h env url s _ (by rw [hout])

/-- A stand-in hex digest for concrete test states. -/
def hashConst : String → String := fun _ => "0123456789abcdef"

/-- An empty cache directory. -/
def emptyCache : CacheSt := ⟨.missing, []⟩

/-- Collaborators: direct strategy runs and the duration probe fails. -/
def envDirectShort : Env where
  isAudio := true
  transform := .ok "http://cdn/b.ogg"
  direct := .ok ()
  contentLength := 0
  chunks := []
  probeDirect := none
  pageTitle := none
  yt := .error ()
  hooks := []
  probeFallback := none

/-- Collaborators: fallback strategy produces a zero-duration mp3. -/
def envFallbackShort : Env where
  isAudio := false
  transform := .error ()
  direct := .error ()
  contentLength := 0
  chunks := []
  probeDirect := none
  pageTitle := none
  yt := .ok ⟨some "T", some 0, ["mp3"]⟩
  hooks := []
  probeFallback := none

/-- C3 witness: both strategies at concrete collaborators — a failed
duration probe on the direct strategy and a zero-duration file on the
fallback strategy — reject the download, delete the file, and fail the
job. -/
theorem c3_short_audio_witness :
    ((download_url hashConst envDirectShort "http://host/a.mp3" emptyCache).res
        = .error (.tooShort 0)
      ∧ directName hashConst "http://host/a.mp3" "http://cdn/b.ogg"
          ∉ (download_url hashConst envDirectShort "http://host/a.mp3" emptyCache).state.files
      ∧ ((jobTrace hashConst envDirectShort "http://host/a.mp3" emptyCache).getLast?).map
          JobView.status = some .FAILED)
    ∧ ((download_url hashConst envFallbackShort "http://host/a.mp3" emptyCache).res
        = .error (.tooShort 0)
      ∧ ("0123456789abcdef" ++ "." ++ "mp3")
          ∉ (download_url hashConst envFallbackShort "http://host/a.mp3" emptyCache).state.files
      ∧ ((jobTrace hashConst envFallbackShort "http://host/a.mp3" emptyCache).getLast?).map
          JobView.status = some .FAILED) :=
  ⟨(c3_short_audio_rejected hashConst envDirectShort "http://host/a.mp3" emptyCache
      emptyCache rfl).1 "http://cdn/b.ogg" rfl rfl (by decide),
   (c3_short_audio_rejected hashConst envFallbackShort "http://host/a.mp3" emptyCache
      emptyCache rfl).2 rfl ⟨some "T", some 0, ["mp3"]⟩ rfl "mp3" (by decide) (by decide)⟩

/-! ### Claim C1: monotonic terminality of the job state machine -/

theorem chain'_le_cons_of_le {i j : ℕ} {is : List ℕ}
    (hij : i ≤ j) (hc : List.Chain' (· ≤ ·) (j :: is)) : List.Chain' (· ≤ ·) (i :: is) := by
  cases is with
  | nil => simp
  | cons k t =>
    rw [List.chain'_cons] at hc ⊢
    exact ⟨hij.trans hc.1, hc.2⟩

/-- Sampling a list at nondecreasing indices and collapsing adjacent
equal samples yields a sublist of the list: `destutter'` version. -/
theorem destutter'_sample {α : Type} [DecidableEq α] (l : List α) (d : α) :
    ∀ (is : List ℕ) (i : ℕ), List.Chain' (· ≤ ·) (i :: is) → i < l.length →
      (∀ k ∈ is, k < l.length) →
      List.Sublist
        (List.destutter' (· ≠ ·) (l.getD i d) (is.map (fun k => l.getD k d)))
        (l.drop i) := by
  intro is
  induction is with
  | nil =>
    intro i _ hi _
    rw [List.drop_eq_getElem_cons hi]
    have hgd : l.getD i d = l[i] := by
      rw [List.getD_eq_getElem?_getD, List.getElem?_eq_getElem hi]
      rfl
    rw [hgd]
    exact (List.nil_sublist _).cons₂ _
  | cons j is' ih =>
    intro i hchain hi hbound
    have hij : i ≤ j := (List.chain'_cons.mp hchain).1
    have hcj : List.Chain' (· ≤ ·) (j :: is') := (List.chain'_cons.mp hchain).2
    have hjlen : j < l.length := hbound j (List.mem_cons_self _ _)
    rw [List.map_cons, List.destutter'_cons]
    split
    · next hne =>
      have hilt : i < j := by
        rcases Nat.lt_or_ge i j with hlt | hge
        · exact hlt
        · exfalso
          have : i = j := Nat.le_antisymm hij hge
          exact hne (by rw [this])
      rw [List.drop_eq_getElem_cons hi]
      have hgd : l.getD i d = l[i] := by
        rw [List.getD_eq_getElem?_getD, List.getElem?_eq_getElem hi]
        rfl
      rw [hgd]
      refine List.Sublist.cons₂ _ ?_
      have hsub := ih j hcj hjlen (fun k hk => hbound k (List.mem_cons_of_mem _ hk))
      refine hsub.trans ?_
      have : List.drop j l = List.drop ((i + 1) + (j - (i + 1))) l := by
        congr 1
        omega
      rw [this, ← List.drop_drop]
      exact List.drop_sublist _ _
    · next hne =>
      exact ih i (chain'_le_cons_of_le hij hcj) hi
        (fun k hk => hbound k (List.mem_cons_of_mem _ hk))

/-- Sampling a list at nondecreasing indices and collapsing adjacent
equal samples yields a sublist of the list. -/
theorem destutter_sample {α : Type} [DecidableEq α] (l : List α) (d : α)
    (is : List ℕ) (hchain : List.Chain' (· ≤ ·) is)
    (hbound : ∀ k ∈ is, k < l.length) :
    List.Sublist ((is.map (fun k => l.getD k d)).destutter (· ≠ ·)) l := by
  cases is with
  | nil => simp [List.destutter]
  | cons i is' =>
    rw [List.map_cons, List.destutter_cons']
    refine (destutter'_sample l d is' i hchain
      (hbound i (List.mem_cons_self _ _))
      (fun k hk => hbound k (List.mem_cons_of_mem _ hk))).trans ?_
    exact List.drop_sublist _ _

theorem chain'_ne_replicate {α : Type} (x : α) (m : ℕ)
    (h : List.Chain' (· ≠ ·) (List.replicate m x)) : m ≤ 1 := by
  match m with
  | 0 => exact Nat.zero_le 1
  | 1 => exact Nat.le_refl 1
  | m + 2 =>
    exfalso
    rw [List.replicate_succ, List.replicate_succ, List.chain'_cons] at h
    exact h.1 rfl

theorem chain'_mid {α : Type} {R : α → α → Prop} {x y z : List α}
    (h : List.Chain' R (x ++ y ++ z)) : List.Chain' R y := by
  rw [List.append_assoc] at h
  exact (List.chain'_append.mp ((List.chain'_append.mp h).2.1)).1

/-- A stutter-free sublist of `[P] ++ Dᵃ ++ Prᵇ ++ [T]` is a sublist of
`[P, D, Pr, T]`. -/
theorem chain_ne_sublist_runs {α : Type} (P D Pr T : α) (a b : ℕ) (s : List α)
    (hs : List.Sublist s
      ([P] ++ (List.replicate a D ++ List.replicate b Pr) ++ [T]))
    (hchain : List.Chain' (· ≠ ·) s) : List.Sublist s [P, D, Pr, T] := by
  rw [List.sublist_append_iff] at hs
  obtain ⟨u, v, huv, hu, hv⟩ := hs
  rw [List.sublist_append_iff] at hu
  obtain ⟨u1, u2, hu12, hu1, hu2⟩ := hu
  rw [List.sublist_append_iff] at hu2
  obtain ⟨u3, u4, hu34, hu3, hu4⟩ := hu2
  obtain ⟨m, -, hm⟩ := List.sublist_replicate_iff.mp hu3
  obtain ⟨k, -, hk⟩ := List.sublist_replicate_iff.mp hu4
  subst hm hk hu34 hu12 huv
  have hre1 : u1 ++ (List.replicate m D ++ List.replicate k Pr) ++ v
      = u1 ++ List.replicate m D ++ (List.replicate k Pr ++ v) := by
    simp [List.append_assoc]
  have hre2 : u1 ++ (List.replicate m D ++ List.replicate k Pr) ++ v
      = (u1 ++ List.replicate m D) ++ List.replicate k Pr ++ v := by
    simp [List.append_assoc]
  have hm1 : m ≤ 1 := chain'_ne_replicate D m (chain'_mid (hre1 ▸ hchain))
  have hk1 : k ≤ 1 := chain'_ne_replicate Pr k (chain'_mid (hre2 ▸ hchain))
  have hrepl : ∀ (x : α) (n : ℕ), n ≤ 1 → List.Sublist (List.replicate n x) [x] := by
    intro x n hn
    match n, hn with
    | 0, _ => exact List.nil_sublist _
    | 1, _ => simp
  show List.Sublist (u1 ++ (List.replicate m D ++ List.replicate k Pr) ++ v)
    ([P] ++ ([D] ++ [Pr]) ++ [T])
  exact (hu1.append ((hrepl D m hm1).append (hrepl Pr k hk1))).append hv

theorem stepProg_status (j : JobView) (e : ProgEv) :
    (stepProg j e).status = if e.1 ≥ 100 then .PROCESSING else j.status := rfl

theorem midSnaps_status_pr (evs : List ProgEv) :
    ∀ (j : JobView), j.status = .PROCESSING →
      (midSnaps j evs).map JobView.status = List.replicate (evs.length + 1) .PROCESSING := by
  induction evs with
  | nil =>
    intro j hj
    simp [midSnaps, hj, List.replicate]
  | cons e es ih =>
    intro j hj
    have hstep : (stepProg j e).status = .PROCESSING := by
      rw [stepProg_status]
      split <;> simp [hj]
    rw [midSnaps, List.map_cons, ih (stepProg j e) hstep, hj]
    simp [List.replicate_succ]

theorem midSnaps_status_dl (evs : List ProgEv) :
    ∀ (j : JobView), j.status = .DOWNLOADING →
      ∃ a b, (midSnaps j evs).map JobView.status
          = List.replicate a .DOWNLOADING ++ List.replicate b .PROCESSING
        ∧ 1 ≤ a := by
  induction evs with
  | nil =>
    intro j hj
    exact ⟨1, 0, by simp [midSnaps, hj, List.replicate], Nat.le_refl 1⟩
  | cons e es ih =>
    intro j hj
    by_cases he : (e.1 : ℚ) ≥ 100
    · have hstep : (stepProg j e).status = .PROCESSING := by
        rw [stepProg_status, if_pos he]
      refine ⟨1, es.length + 1, ?_, Nat.le_refl 1⟩
      rw [midSnaps, List.map_cons, midSnaps_status_pr es (stepProg j e) hstep, hj]
      simp [List.replicate_succ]
    · have hstep : (stepProg j e).status = .DOWNLOADING := by
        rw [stepProg_status, if_neg he, hj]
      obtain ⟨a, b, hab, ha⟩ := ih (stepProg j e) hstep
      refine ⟨a + 1, b, ?_, Nat.le_succ_of_le ha⟩
      rw [midSnaps, List.map_cons, hab, hj]
      simp [List.replicate_succ]

/-- The terminal status written by `run` for a given resolver outcome. -/
def terminalOf : Except DlError DownloadResult → JobStatus
  | .ok _ => .COMPLETE
  | .error _ => .FAILED

theorem finalize_status (j : JobView) (res : Except DlError DownloadResult) :
    (finalize j res).status = terminalOf res := by
  cases res <;> rfl

/-- The status timeline of a run: PENDING, then a nonempty block of
DOWNLOADING, then a block of PROCESSING, then the terminal status. -/
theorem runSnaps_statuses (prog : List ProgEv) (res : Except DlError DownloadResult) :
    ∃ a b, (runSnaps prog res).map JobView.status
        = [JobStatus.PENDING]
            ++ (List.replicate a .DOWNLOADING ++ List.replicate b .PROCESSING)
            ++ [terminalOf res]
      ∧ 1 ≤ a := by
  obtain ⟨a, b, hab, ha⟩ := midSnaps_status_dl prog jobStarted rfl
  refine ⟨a, b, ?_, ha⟩
  unfold runSnaps
  simp only [List.map_cons, List.map_append, List.map_cons, List.map_nil]
  rw [hab, finalize_status]
  rfl

/-- The sequence of job status values in write order over one job's
lifetime (what a poller reads at any instant is an entry of this list). -/
def statusTimeline (h : String → String) (env : Env) (url : String) (s : CacheSt) :
    List JobStatus :=
  (jobTrace h env url s).map JobView.status

/-- C1: monotonic terminality.  Sample the job's status at any polling
cadence (any nondecreasing sequence of instants `is`): after collapsing
adjacent equal observations, the observed sequence is a subsequence of
`PENDING, DOWNLOADING, PROCESSING, COMPLETE` or of
`PENDING, DOWNLOADING, PROCESSING, FAILED` (PROCESSING optional in
either).  Moreover, once COMPLETE or FAILED is observed at some instant
`i`, every later instant `j` observes exactly the same status: no step of
the system ever changes a terminal job's status. -/
theorem c1_monotonic_terminality (h : String → String) (env : Env) (url : String)
    (s : CacheSt) (is : List ℕ) (i j : ℕ)
    (hchain : List.Chain' (· ≤ ·) is)
    (hbound : ∀ k ∈ is, k < (statusTimeline h env url s).length)
    (hij : i ≤ j) (hjlen : j < (statusTimeline h env url s).length)
    (hterm : (statusTimeline h env url s).getD i .PENDING = .COMPLETE
        ∨ (statusTimeline h env url s).getD i .PENDING = .FAILED) :
    (List.Sublist
        ((is.map (fun k => (statusTimeline h env url s).getD k .PENDING)).destutter (· ≠ ·))
        [JobStatus.PENDING, .DOWNLOADING, .PROCESSING, .COMPLETE]
      ∨ List.Sublist
        ((is.map (fun k => (statusTimeline h env url s).getD k .PENDING)).destutter (· ≠ ·))
        [JobStatus.PENDING, .DOWNLOADING, .PROCESSING, .FAILED])
    ∧ (statusTimeline h env url s).getD j .PENDING
        = (statusTimeline h env url s).getD i .PENDING := by
  obtain ⟨a, b, htl, ha⟩ :=
    runSnaps_statuses (download_url h env url s).prog (download_url h env url s).res
  have htl' : statusTimeline h env url s
      = [JobStatus.PENDING]
          ++ (List.replicate a .DOWNLOADING ++ List.replicate b .PROCESSING)
          ++ [terminalOf (download_url h env url s).res] := htl
  have hT : terminalOf (download_url h env url s).res = .COMPLETE
      ∨ terminalOf (download_url h env url s).res = .FAILED := by
    cases (download_url h env url s).res
    · exact Or.inr rfl
    · exact Or.inl rfl
  constructor
  · have hsub := destutter_sample (statusTimeline h env url s) .PENDING is hchain hbound
    have hch := List.destutter_is_chain' (· ≠ ·)
      (is.map (fun k => (statusTimeline h env url s).getD k .PENDING))
    have hrun := chain_ne_sublist_runs JobStatus.PENDING .DOWNLOADING .PROCESSING
      (terminalOf (download_url h env url s).res) a b _ (htl' ▸ hsub) hch
    rcases hT with hC | hF
    · exact Or.inl (hC ▸ hrun)
    · exact Or.inr (hF ▸ hrun)
  · have hlen : (statusTimeline h env url s).length = a + b + 2 := by
      rw [htl']
      simp [List.length_append, List.length_replicate]
      omega
    have hnonterm : ∀ k, k < a + b + 1 →
        ¬((statusTimeline h env url s).getD k .PENDING = .COMPLETE
          ∨ (statusTimeline h env url s).getD k .PENDING = .FAILED) := by
      intro k hk habs
      have hklen : k < ([JobStatus.PENDING]
          ++ (List.replicate a JobStatus.DOWNLOADING ++ List.replicate b JobStatus.PROCESSING)).length := by
        simp [List.length_append, List.length_replicate]
        omega
      have hgd : (statusTimeline h env url s).getD k .PENDING
          = ([JobStatus.PENDING]
              ++ (List.replicate a JobStatus.DOWNLOADING ++ List.replicate b JobStatus.PROCESSING)).getD k
              .PENDING := by
        rw [htl', List.append_assoc]
        rw [← List.append_assoc]
        exact List.getD_append _ _ _ _ hklen
      have hmem : ([JobStatus.PENDING]
          ++ (List.replicate a JobStatus.DOWNLOADING ++ List.replicate b JobStatus.PROCESSING)).getD k .PENDING
          ∈ ([JobStatus.PENDING]
          ++ (List.replicate a JobStatus.DOWNLOADING ++ List.replicate b JobStatus.PROCESSING)) := by
        rw [List.getD_eq_getElem?_getD, List.getElem?_eq_getElem hklen]
        exact List.getElem_mem _
      rw [hgd] at habs
      rcases List.mem_append.mp hmem with hm | hm
      · rcases habs with habs | habs <;> rw [habs] at hm <;> simp at hm
      · rcases List.mem_append.mp hm with hm2 | hm2 <;>
          rcases habs with habs | habs <;>
          rw [habs] at hm2 <;>
          have := List.eq_of_mem_replicate hm2 <;>
          cases this
    have hi_eq : i = a + b + 1 := by
      by_contra hne
      have hi2 : i < a + b + 2 := by
        have := Nat.lt_of_le_of_lt hij hjlen
        omega
      exact hnonterm i (by omega) hterm
    have hj_eq : j = a + b + 1 := by
      rw [hlen] at hjlen
      omega
    rw [hi_eq, hj_eq]

/-- Collaborators: fallback strategy succeeds with a 5-second mp3. -/
def envFallbackOk : Env where
  isAudio := false
  transform := .error ()
  direct := .error ()
  contentLength := 0
  chunks := []
  probeDirect := none
  pageTitle := none
  yt := .ok ⟨some "T", some 5, ["mp3"]⟩
  hooks := []
  probeFallback := none

/-- C1 witness: a concrete successful job polled at every instant; the
destuttered observation sequence is a subsequence of one of the two
status chains, and the terminal observation never changes. -/
theorem c1_monotonic_terminality_witness :
    (List.Sublist
        (([0, 1, 2, 3].map
            (fun k => (statusTimeline hashConst envFallbackOk "http://x" emptyCache).getD k
              .PENDING)).destutter (· ≠ ·))
        [JobStatus.PENDING, .DOWNLOADING, .PROCESSING, .COMPLETE]
      ∨ List.Sublist
        (([0, 1, 2, 3].map
            (fun k => (statusTimeline hashConst envFallbackOk "http://x" emptyCache).getD k
              .PENDING)).destutter (· ≠ ·))
        [JobStatus.PENDING, .DOWNLOADING, .PROCESSING, .FAILED])
    ∧ (statusTimeline hashConst envFallbackOk "http://x" emptyCache).getD 3 .PENDING
        = (statusTimeline hashConst envFallbackOk "http://x" emptyCache).getD 3 .PENDING :=
  c1_monotonic_terminality hashConst envFallbackOk "http://x" emptyCache [0, 1, 2, 3] 3 3
    (by simp) (by decide) (Nat.le_refl 3) (by decide) (Or.inl (by decide))

/-! ### Claim C7: progress monotonicity -/

/-- Collaborators whose extractor reports a downloading callback (with no
total) after the transfer was already reported finished, as multi-stream
extractions do. -/
def envHookReset : Env where
  isAudio := false
  transform := .error ()
  direct := .error ()
  contentLength := 0
  chunks := []
  probeDirect := none
  pageTitle := none
  yt := .ok ⟨some "T", some 5, ["mp3"]⟩
  hooks := [.finished, .downloading (some 0) none none]
  probeFallback := none

/-- C7 (counterexample): the job's progress is *not* monotonically
non-decreasing with resets only on a transition into DOWNLOADING: `run`
stores whatever percent the strategy reports (line 484), so a hook
sequence `finished` then `downloading` (the latter without a byte total,
line 371-376 computes percent 0) drives progress from 100 back to 0 while
the status stays PROCESSING throughout. -/
theorem c7_progress_can_decrease :
    ((jobTrace hashConst envHookReset "http://x" emptyCache).getD 2 jobInit).progress = 100
      ∧ ((jobTrace hashConst envHookReset "http://x" emptyCache).getD 3 jobInit).progress = 0
      ∧ ((jobTrace hashConst envHookReset "http://x" emptyCache).getD 2 jobInit).status
          = .PROCESSING
      ∧ ((jobTrace hashConst envHookReset "http://x" emptyCache).getD 3 jobInit).status
          = .PROCESSING
      ∧ (0 : ℚ) < 100 := by
  refine ⟨by decide, by decide, by decide, by decide, by decide⟩

/-- The progress value of each job snapshot, in write order. -/
def progressTimeline (h : String → String) (env : Env) (url : String) (s : CacheSt) :
    List ℚ :=
  (jobTrace h env url s).map JobView.progress

theorem midSnaps_progress (evs : List ProgEv) :
    ∀ (j : JobView), (midSnaps j evs).map JobView.progress = j.progress :: evs.map Prod.fst := by
  induction evs with
  | nil => intro j; rfl
  | cons e es ih =>
    intro j
    rw [midSnaps, List.map_cons, ih (stepProg j e)]
    rfl

theorem afterProg_progress (evs : List ProgEv) :
    ∀ (j : JobView), (afterProg j evs).progress = (evs.map Prod.fst).getLastD j.progress := by
  induction evs with
  | nil => intro j; rfl
  | cons e es ih =>
    intro j
    show (afterProg (stepProg j e) es).progress = _
    rw [ih (stepProg j e), List.map_cons, List.getLastD_cons]
    rfl

/-- The progress trace of a run: 0 at PENDING, 0 at DOWNLOADING, the
reported percents in order, then 100 on COMPLETE or the last value on
FAILED. -/
theorem runSnaps_progress (prog : List ProgEv) (res : Except DlError DownloadResult) :
    (runSnaps prog res).map JobView.progress
      = 0 :: ((0 :: prog.map Prod.fst)
          ++ [match res with
              | .ok _ => (100 : ℚ)
              | .error _ => (prog.map Prod.fst).getLastD 0]) := by
  unfold runSnaps
  simp only [List.map_cons, List.map_append, List.map_nil]
  rw [midSnaps_progress prog jobStarted]
  cases res with
  | ok r => rfl
  | error e =>
    have hfin : (finalize (afterProg jobStarted prog) (.error e)).progress
        = (prog.map Prod.fst).getLastD 0 := by
      show (afterProg jobStarted prog).progress = _
      rw [afterProg_progress prog jobStarted]
      rfl
    rw [hfin]
    rfl

/-- All values lie in the progress range 0..100. -/
def Bounded01 (l : List ℚ) : Prop := ∀ p ∈ l, 0 ≤ p ∧ p ≤ 100

theorem bounded_cons_zero {l : List ℚ} (hb : Bounded01 l) : Bounded01 (0 :: l) := by
  intro p hp
  rcases List.mem_cons.mp hp with hp | hp
  · subst hp; exact ⟨le_refl 0, by norm_num⟩
  · exact hb p hp

theorem chain_cons_zero {l : List ℚ} (hc : List.Chain' (· ≤ ·) l) (hb : Bounded01 l) :
    List.Chain' (· ≤ ·) (0 :: l) := by
  rw [List.chain'_cons']
  exact ⟨fun y hy => (hb y (List.mem_of_mem_head? hy)).1, hc⟩

theorem bounded_append_100 {l : List ℚ} (hb : Bounded01 l) : Bounded01 (l ++ [100]) := by
  intro p hp
  rcases List.mem_append.mp hp with hp | hp
  · exact hb p hp
  · rcases List.mem_singleton.mp hp with rfl
    exact ⟨by norm_num, le_refl _⟩

theorem chain_append_100 {l : List ℚ} (hc : List.Chain' (· ≤ ·) l) (hb : Bounded01 l) :
    List.Chain' (· ≤ ·) (l ++ [100]) := by
  rw [List.chain'_append]
  refine ⟨hc, List.chain'_singleton _, ?_⟩
  intro x hx y hy
  have hy' := List.mem_singleton.mp (List.mem_of_mem_head? hy)
  subst hy'
  exact (hb x (List.mem_of_mem_getLast? hx)).2

theorem chunkEvents_total_zero (chunks : List ℕ) : ∀ d0, chunkEvents 0 d0 chunks = [] := by
  induction chunks with
  | nil => intro d0; rfl
  | cons c cs ih => intro d0; simpa [chunkEvents] using ih (d0 + c)

theorem chunkEvents_regular (T : ℕ) (hT : 0 < T) (chunks : List ℕ) :
    ∀ d0 : ℕ, d0 + chunks.sum ≤ T →
      List.Chain' (· ≤ ·)
          (((d0 : ℚ) / (T : ℚ) * 100) :: (chunkEvents T d0 chunks).map Prod.fst)
        ∧ Bounded01 ((chunkEvents T d0 chunks).map Prod.fst) := by
  induction chunks with
  | nil =>
    intro d0 _
    exact ⟨List.chain'_singleton _, by intro p hp; simp [chunkEvents] at hp⟩
  | cons c cs ih =>
    intro d0 hsum
    have hstep : chunkEvents T d0 (c :: cs)
        = (((d0 + c : ℕ) : ℚ) / (T : ℚ) * 100,
            .downloading (((d0 + c : ℕ) : ℚ) / (T : ℚ) * 100)) :: chunkEvents T (d0 + c) cs := by
      simp [chunkEvents, hT]
    have hsum' : (d0 + c) + cs.sum ≤ T := by
      rw [List.sum_cons] at hsum
      omega
    obtain ⟨ihc, ihb⟩ := ih (d0 + c) hsum'
    have hTQ : (0 : ℚ) < (T : ℚ) := by exact_mod_cast hT
    have hle : (d0 : ℚ) / (T : ℚ) * 100 ≤ ((d0 + c : ℕ) : ℚ) / (T : ℚ) * 100 := by
      gcongr
      exact_mod_cast Nat.le_add_right d0 c
    have hbound : 0 ≤ ((d0 + c : ℕ) : ℚ) / (T : ℚ) * 100
        ∧ ((d0 + c : ℕ) : ℚ) / (T : ℚ) * 100 ≤ 100 := by
      constructor
      · positivity
      · have h1 : ((d0 + c : ℕ) : ℚ) / (T : ℚ) ≤ 1 := by
          rw [div_le_one hTQ]
          exact_mod_cast (show d0 + c ≤ T by omega)
        calc ((d0 + c : ℕ) : ℚ) / (T : ℚ) * 100 ≤ 1 * 100 := by gcongr
          _ = 100 := by ring
    rw [hstep, List.map_cons]
    constructor
    · rw [List.chain'_cons]
      exact ⟨hle, ihc⟩
    · intro p hp
      rcases List.mem_cons.mp hp with hp | hp
      · subst hp; exact hbound
      · exact ihb p hp

theorem transformTried_of_directUrl {env : Env} {url du : String}
    (hdu : directUrlOf env url = some du) : transformTried env url = true := by
  unfold directUrlOf at hdu
  split at hdu
  · assumption
  · cases hdu

/-- The percent sequence of the direct download loop, bracketed by the
initial 0% and the final 100% report, is monotone and within range. -/
theorem direct_pcts_core (total : ℕ) (chunks : List ℕ)
    (hchunks : chunks.sum ≤ total ∨ total = 0) :
    List.Chain' (· ≤ ·) ((0 : ℚ) :: (chunkEvents total 0 chunks).map Prod.fst ++ [100])
      ∧ Bounded01 ((0 : ℚ) :: (chunkEvents total 0 chunks).map Prod.fst ++ [100]) := by
  by_cases hT : 0 < total
  · have hsum : 0 + chunks.sum ≤ total := by
      rcases hchunks with hc | hc
      · omega
      · omega
    obtain ⟨hc, hb⟩ := chunkEvents_regular total hT chunks 0 hsum
    have hzero : ((0 : ℕ) : ℚ) / (total : ℚ) * 100 = 0 := by
      simp
    rw [hzero] at hc
    have hb0 : Bounded01 ((0 : ℚ) :: (chunkEvents total 0 chunks).map Prod.fst) :=
      bounded_cons_zero hb
    exact ⟨chain_append_100 hc hb0, bounded_append_100 hb0⟩
  · have htz : total = 0 := by omega
    subst htz
    rw [chunkEvents_total_zero chunks 0]
    constructor
    · simp [List.chain'_cons]
    · intro p hp
      simp at hp
      rcases hp with rfl | rfl
      · exact ⟨le_refl 0, by norm_num⟩
      · exact ⟨by norm_num, le_refl _⟩

/-- Under regular collaborator reporting — direct-download byte counts
never exceeding the advertised total, and extractor progress callbacks
whose computed percents are monotone and within 0..100 — every percent
sequence `download_url` emits is monotone and within 0..100. -/
theorem dl_pcts_regular (h : String → String) (env : Env) (url : String) (s : CacheSt)
    (hchunks : env.chunks.sum ≤ env.contentLength ∨ env.contentLength = 0)
    (hhooks1 : List.Chain' (· ≤ ·) ((hookEvents env.hooks).map Prod.fst))
    (hhooks2 : Bounded01 ((hookEvents env.hooks).map Prod.fst)) :
    List.Chain' (· ≤ ·) ((download_url h env url s).prog.map Prod.fst)
      ∧ Bounded01 ((download_url h env url s).prog.map Prod.fst) := by
  rcases hget : get_cached h url s with ⟨e | c, s₁⟩
  · -- the lookup raised: no progress events
    have hout : download_url h env url s = ⟨.error e, s₁, [], []⟩ := by
      unfold download_url
      rw [hget]
    rw [hout]
    exact ⟨List.chain'_nil, by intro p hp; simp at hp⟩
  rcases c with - | c
  case mk.ok.some =>
    -- cache hit: a single 100% event
    have hout := download_url_hit h env url s s₁ c hget
    rw [hout]
    refine ⟨List.chain'_singleton _, ?_⟩
    intro p hp
    simp only [List.map_cons, List.map_nil, List.mem_singleton] at hp
    subst hp
    exact ⟨by norm_num, le_refl _⟩
  case mk.ok.none =>
    rcases hdu : directUrlOf env url with - | du
    · -- fallback strategy
      have hout := download_url_miss_fallback h env url s s₁ hget hdu
      rw [hout]
      unfold fallbackPath
      dsimp only []
      have hpre : List.Chain' (· ≤ ·)
            (((if transformTried env url then [((0 : ℚ), Msg.resolving)] else [])
              ++ hookEvents env.hooks).map Prod.fst)
          ∧ Bounded01
            (((if transformTried env url then [((0 : ℚ), Msg.resolving)] else [])
              ++ hookEvents env.hooks).map Prod.fst) := by
        by_cases htt : transformTried env url = true
        · rw [if_pos htt]
          simp only [List.map_append, List.map_cons, List.map_nil]
          exact ⟨chain_cons_zero hhooks1 hhooks2, bounded_cons_zero hhooks2⟩
        · rw [if_neg htt]
          simpa using ⟨hhooks1, hhooks2⟩
      obtain ⟨hpc, hpb⟩ := hpre
      rcases hyt : env.yt with e' | info
      · simp only [hyt]
        exact ⟨hpc, hpb⟩
      · simp only [hyt]
        rcases hfind : extProbe.find?
            (fun ext => decide ((url_hash h url ++ "." ++ ext)
              ∈ ytFiles h url info s₁.files)) with - | ext
        · simp only [hfind]
          exact ⟨hpc, hpb⟩
        · simp only [hfind]
          by_cases hd : fallbackDuration env info < 1
          · rw [if_pos hd]
            exact ⟨hpc, hpb⟩
          · rw [if_neg hd]
            rcases hst : storeIndex (url_hash h url) url ((info.title).getD "Unknown")
                (fallbackDuration env info) (url_hash h url ++ "." ++ ext)
                ⟨s₁.indexFile, ytFiles h url info s₁.files⟩ with e'' | s₂
            · simp only [hst]
              exact ⟨hpc, hpb⟩
            · simp only [hst]
              constructor
              · have := chain_append_100 hpc hpb
                simpa using this
              · intro p hp
                refine bounded_append_100 hpb p ?_
                simpa using hp
    · -- direct strategy
      have htt := transformTried_of_directUrl hdu
      have hout := download_url_miss_direct h env url du s s₁ hget hdu
      rw [hout, htt]
      unfold directPath
      dsimp only []
      obtain ⟨hc, hb⟩ := direct_pcts_core env.contentLength env.chunks hchunks
      rcases hdir : env.direct with e' | u
      · simp only [hdir]
        constructor
        · simp
        · intro p hp
          simp at hp
          subst hp
          exact ⟨le_refl 0, by norm_num⟩
      · simp only [hdir]
        by_cases hd : (env.probeDirect).getD 0 < 1
        · rw [if_pos hd]
          constructor
          · simpa using hc
          · intro p hp
            refine hb p ?_
            simpa using hp
        · rw [if_neg hd]
          rcases hst : storeIndex (url_hash h url) url
              ((env.pageTitle).getD (titleFromUrl url)) ((env.probeDirect).getD 0)
              (directName h url du)
              ⟨s₁.indexFile, addFile (directName h url du) s₁.files⟩ with e'' | s₂
          · simp only [hst]
            constructor
            · simpa using hc
            · intro p hp
              refine hb p ?_
              simpa using hp
          · simp only [hst]
            constructor
            · have := chain_append_100 hc hb
              simpa using this
            · intro p hp
              refine bounded_append_100 hb p ?_
              simpa using hp

/-- C7 (amended): provided the collaborators report regular progress —
the direct download's byte count never exceeds the advertised
content-length, and the extractor's progress callbacks yield monotone
percents within 0..100 — the job's progress stays within 0 and 100 and is
monotonically non-decreasing throughout the job's lifetime (so in
particular it never resets).  Without these hypotheses the claim is false:
`run` stores reported percents unclamped (see the counterexample). -/
theorem c7_progress_monotone (h : String → String) (env : Env) (url : String) (s : CacheSt)
    (hchunks : env.chunks.sum ≤ env.contentLength ∨ env.contentLength = 0)
    (hhooks1 : List.Chain' (· ≤ ·) ((hookEvents env.hooks).map Prod.fst))
    (hhooks2 : Bounded01 ((hookEvents env.hooks).map Prod.fst)) :
    List.Chain' (· ≤ ·) (progressTimeline h env url s)
      ∧ Bounded01 (progressTimeline h env url s) := by
  obtain ⟨hc, hb⟩ := dl_pcts_regular h env url s hchunks hhooks1 hhooks2
  have htl : progressTimeline h env url s
      = 0 :: ((0 :: (download_url h env url s).prog.map Prod.fst)
          ++ [match (download_url h env url s).res with
              | .ok _ => (100 : ℚ)
              | .error _ => ((download_url h env url s).prog.map Prod.fst).getLastD 0]) :=
    runSnaps_progress (download_url h env url s).prog (download_url h env url s).res
  rw [htl]
  have h0c := chain_cons_zero hc hb
  have h0b := bounded_cons_zero hb
  cases hres : (download_url h env url s).res with
  | ok r =>
    exact ⟨chain_cons_zero (chain_append_100 h0c h0b) (bounded_append_100 h0b),
      bounded_cons_zero (bounded_append_100 h0b)⟩
  | error e =>
    have hlastb := h0b _ (List.getLastD_mem_cons ((download_url h env url s).prog.map Prod.fst) 0)
    have hlastb' : (((download_url h env url s).prog.map Prod.fst).getLastD 0 ∈
        (0 : ℚ) :: (download_url h env url s).prog.map Prod.fst) :=
      List.getLastD_mem_cons _ 0
    have hchain2 : List.Chain' (· ≤ ·)
        ((0 :: (download_url h env url s).prog.map Prod.fst)
          ++ [((download_url h env url s).prog.map Prod.fst).getLastD 0]) := by
      rw [List.chain'_append]
      refine ⟨h0c, List.chain'_singleton _, ?_⟩
      intro x hx y hy
      have hx' : x = ((download_url h env url s).prog.map Prod.fst).getLast?.getD 0 := by
        rw [Option.mem_def, List.getLast?_cons] at hx
        exact (Option.some.inj hx).symm
      have hy' : y = ((download_url h env url s).prog.map Prod.fst).getLastD 0 := by
        rw [Option.mem_def, List.head?_cons] at hy
        exact (Option.some.inj hy).symm
      rw [hx', hy', List.getLastD_eq_getLast?]
    have hb2 : Bounded01
        ((0 :: (download_url h env url s).prog.map Prod.fst)
          ++ [((download_url h env url s).prog.map Prod.fst).getLastD 0]) := by
      intro p hp
      rcases List.mem_append.mp hp with hp | hp
      · exact h0b p hp
      · rcases List.mem_singleton.mp hp with rfl
        exact h0b _ hlastb'
    exact ⟨chain_cons_zero hchain2 hb2, bounded_cons_zero hb2⟩

/-- C7 witness: the amended theorem at concrete regular collaborators. -/
theorem c7_progress_monotone_witness :
    List.Chain' (· ≤ ·) (progressTimeline hashConst envFallbackOk "http://x" emptyCache)
      ∧ Bounded01 (progressTimeline hashConst envFallbackOk "http://x" emptyCache) :=
  c7_progress_monotone hashConst envFallbackOk "http://x" emptyCache (Or.inr rfl)
    (by simp [hookEvents, envFallbackOk])
    (by intro p hp; simp [hookEvents, envFallbackOk] at hp)

/-! ### Claim C4: tracking-parameter invariance of `normalize_url` -/

/-- C4 (counterexample): two URLs that differ only in the *presence* of a
tracking parameter need not normalize identically: removing a leading
`?utm_…=…` that is followed by further parameters leaves the next
parameter glued on with `&` instead of `?`, so the outputs (and hence the
cache keys for an injective digest) differ. -/
theorem c4_presence_changes_normalization :
    (normalize_url "http://a?utm_s=1&x=2" = normalize_url "http://a?x=2") = False
      ∧ normalize_url "http://a?utm_s=1&x=2" = "http://a&x=2"
      ∧ normalize_url "http://a?x=2" = "http://a?x=2" :=
  ⟨eq_false (by decide), by decide, by decide⟩

/-- The key part of one alternative of the tracking-parameter regex
`(utm_\w+|fbclid|ref|feature)`. -/
def trackKey (k : List Char) : Prop :=
  k = ['f', 'b', 'c', 'l', 'i', 'd'] ∨ k = ['r', 'e', 'f'] ∨
    k = ['f', 'e', 'a', 't', 'u', 'r', 'e'] ∨
    ∃ w, w ≠ [] ∧ (∀ c ∈ w, wordChar c = true) ∧ k = 'u' :: 't' :: 'm' :: '_' :: w

/-- `u` begins with a whole tracking parameter `key=`. -/
def startsTrack (u : List Char) : Prop :=
  ∃ k t, trackKey k ∧ u = k ++ '=' :: t

/-- Two URLs differ only in the values of their tracking parameters: they
are equal character for character, except that at matching positions a
well-formed tracking parameter `sep key=value` (value free of `&`, ending
at a `&` or at the end of the URL) may carry different values. -/
inductive TEquiv : List Char → List Char → Prop
  | nil : TEquiv [] []
  | copy (c : Char) (hc : ¬(c = '?' ∨ c = '&')) {u v : List Char} :
      TEquiv u v → TEquiv (c :: u) (c :: v)
  | seps (c : Char) (hc : c = '?' ∨ c = '&') {u v : List Char}
      (hu : ¬startsTrack u) (hv : ¬startsTrack v) :
      TEquiv u v → TEquiv (c :: u) (c :: v)
  | track (c : Char) (hc : c = '?' ∨ c = '&') (k : List Char) (hk : trackKey k)
      (v1 v2 : List Char) (hv1 : '&' ∉ v1) (hv2 : '&' ∉ v2)
      {r1 r2 : List Char}
      (hr1 : r1 = [] ∨ ∃ t, r1 = '&' :: t) (hr2 : r2 = [] ∨ ∃ t, r2 = '&' :: t) :
      TEquiv r1 r2 →
      TEquiv (c :: (k ++ '=' :: (v1 ++ r1))) (c :: (k ++ '=' :: (v2 ++ r2)))

theorem stripTrackF_nil : ∀ f, stripTrackF f [] = [] := by
  intro f
  cases f <;> rfl

theorem takeWhile_append_all {p : Char → Bool} {a : List Char} {b : Char} {t : List Char}
    (ha : ∀ c ∈ a, p c = true) (hb : p b = false) :
    List.takeWhile p (a ++ b :: t) = a := by
  induction a with
  | nil => simp [List.takeWhile_cons, hb]
  | cons x xs ih =>
    have hx : p x = true := ha x (List.mem_cons_self _ _)
    rw [List.cons_append, List.takeWhile_cons, hx]
    simp only [if_true]
    rw [ih (fun c hc => ha c (List.mem_cons_of_mem _ hc))]

theorem dropWhile_append_all {p : Char → Bool} {a r : List Char}
    (ha : ∀ c ∈ a, p c = true) :
    List.dropWhile p (a ++ r) = List.dropWhile p r := by
  induction a with
  | nil => simp
  | cons x xs ih =>
    have hx : p x = true := ha x (List.mem_cons_self _ _)
    rw [List.cons_append, List.dropWhile_cons, hx]
    simp only [if_true]
    exact ih (fun c hc => ha c (List.mem_cons_of_mem _ hc))

theorem valueDrop_exact {v1 r1 : List Char} (hv1 : '&' ∉ v1)
    (hr1 : r1 = [] ∨ ∃ t, r1 = '&' :: t) : valueDrop (v1 ++ r1) = r1 := by
  unfold valueDrop
  rw [dropWhile_append_all]
  · rcases hr1 with rfl | ⟨t, rfl⟩
    · rfl
    · rw [List.dropWhile_cons]
      simp
  · intro c hc
    simp only [Bool.not_eq_true']
    by_cases h : c = '&'
    · exact absurd (h ▸ hc) hv1
    · simpa using h

theorem tryTrack_track {k v1 r1 : List Char} (hk : trackKey k) (hv1 : '&' ∉ v1)
    (hr1 : r1 = [] ∨ ∃ t, r1 = '&' :: t) :
    tryTrack (k ++ '=' :: (v1 ++ r1)) = some r1 := by
  rcases hk with rfl | rfl | rfl | ⟨w, hw, hword, rfl⟩
  · rw [show (['f', 'b', 'c', 'l', 'i', 'd'] ++ '=' :: (v1 ++ r1))
        = 'f' :: 'b' :: 'c' :: 'l' :: 'i' :: 'd' :: '=' :: (v1 ++ r1) from rfl]
    rw [show tryTrack ('f' :: 'b' :: 'c' :: 'l' :: 'i' :: 'd' :: '=' :: (v1 ++ r1))
        = some (valueDrop (v1 ++ r1)) from rfl]
    rw [valueDrop_exact hv1 hr1]
  · rw [show (['r', 'e', 'f'] ++ '=' :: (v1 ++ r1))
        = 'r' :: 'e' :: 'f' :: '=' :: (v1 ++ r1) from rfl]
    rw [show tryTrack ('r' :: 'e' :: 'f' :: '=' :: (v1 ++ r1))
        = some (valueDrop (v1 ++ r1)) from rfl]
    rw [valueDrop_exact hv1 hr1]
  · rw [show (['f', 'e', 'a', 't', 'u', 'r', 'e'] ++ '=' :: (v1 ++ r1))
        = 'f' :: 'e' :: 'a' :: 't' :: 'u' :: 'r' :: 'e' :: '=' :: (v1 ++ r1) from rfl]
    rw [show tryTrack ('f' :: 'e' :: 'a' :: 't' :: 'u' :: 'r' :: 'e' :: '=' :: (v1 ++ r1))
        = some (valueDrop (v1 ++ r1)) from rfl]
    rw [valueDrop_exact hv1 hr1]
  · rw [show (('u' :: 't' :: 'm' :: '_' :: w) ++ '=' :: (v1 ++ r1))
        = 'u' :: 't' :: 'm' :: '_' :: (w ++ '=' :: (v1 ++ r1)) from rfl]
    have htake : List.takeWhile wordChar (w ++ '=' :: (v1 ++ r1)) = w :=
      takeWhile_append_all hword (by decide)
    show (let wt := List.takeWhile wordChar (w ++ '=' :: (v1 ++ r1));
      if wt.isEmpty then none
      else match (w ++ '=' :: (v1 ++ r1)).drop wt.length with
        | '=' :: r => some (valueDrop r)
        | _ => none) = some r1
    rw [htake]
    have hne : w.isEmpty = false := by
      cases w with
      | nil => exact absurd rfl hw
      | cons a t => rfl
    dsimp only []
    rw [hne]
    simp only [Bool.false_eq_true, if_false]
    rw [show (w ++ '=' :: (v1 ++ r1)).drop w.length = '=' :: (v1 ++ r1) from
      List.drop_left w ('=' :: (v1 ++ r1))]
    simp [valueDrop_exact hv1 hr1]

theorem takeWhile_drop_eq (p : Char → Bool) (l : List Char) :
    l = l.takeWhile p ++ l.drop (l.takeWhile p).length := by
  induction l with
  | nil => rfl
  | cons c cs ih =>
    by_cases hc : p c = true
    · rw [List.takeWhile_cons, hc]
      simp only [if_true, List.length_cons, List.drop_succ_cons, List.cons_append]
      exact congrArg (c :: ·) ih
    · rw [List.takeWhile_cons]
      simp [hc]

set_option maxHeartbeats 2000000 in
theorem tryTrack_some_startsTrack {u r : List Char} (hsome : tryTrack u = some r) :
    startsTrack u := by
  rw [tryTrack.eq_def] at hsome
  split at hsome
  · next rest =>
    dsimp only [] at hsome
    by_cases hw : (rest.takeWhile wordChar).isEmpty = true
    · rw [if_pos hw] at hsome
      cases hsome
    · rw [if_neg hw] at hsome
      split at hsome
      · next r' heq =>
        refine ⟨'u' :: 't' :: 'm' :: '_' :: rest.takeWhile wordChar, r', ?_, ?_⟩
        · refine Or.inr (Or.inr (Or.inr ⟨rest.takeWhile wordChar, ?_, ?_, rfl⟩))
          · intro hnil
            rw [hnil] at hw
            exact hw rfl
          · intro c hc
            exact List.mem_takeWhile_imp hc
        · have hrest := takeWhile_drop_eq wordChar rest
          rw [heq] at hrest
          rw [show ('u' :: 't' :: 'm' :: '_' :: rest.takeWhile wordChar) ++ '=' :: r'
              = 'u' :: 't' :: 'm' :: '_' :: (rest.takeWhile wordChar ++ '=' :: r') from rfl]
          rw [← hrest]
      · cases hsome
  · next r0 =>
    cases hsome
    exact ⟨['f', 'b', 'c', 'l', 'i', 'd'], r0, Or.inl rfl, rfl⟩
  · next r0 =>
    cases hsome
    exact ⟨['r', 'e', 'f'], r0, Or.inr (Or.inl rfl), rfl⟩
  · next r0 =>
    cases hsome
    exact ⟨['f', 'e', 'a', 't', 'u', 'r', 'e'], r0, Or.inr (Or.inr (Or.inl rfl)), rfl⟩
  · cases hsome

theorem tryTrack_none_of_not {u : List Char} (h : ¬startsTrack u) : tryTrack u = none := by
  cases htt : tryTrack u with
  | none => rfl
  | some r => exact absurd (tryTrack_some_startsTrack htt) h

/-- Stage 1 of `normalize_url` is blind to the values of well-formed
tracking parameters. -/
theorem stripTrackF_tequiv {u v : List Char} (huv : TEquiv u v) :
    ∀ fu fv, u.length ≤ fu → v.length ≤ fv → stripTrackF fu u = stripTrackF fv v := by
  induction huv with
  | nil =>
    intro fu fv _ _
    rw [stripTrackF_nil, stripTrackF_nil]
  | copy c hc huv ih =>
    intro fu fv hfu hfv
    cases fu with
    | zero => simp at hfu
    | succ fu' =>
      cases fv with
      | zero => simp at hfv
      | succ fv' =>
        have hsep : (c = '?' || c = '&') = false := by
          simp only [Bool.or_eq_false_iff, decide_eq_false_iff_not]
          exact ⟨fun h => hc (Or.inl h), fun h => hc (Or.inr h)⟩
        show stripTrackF (fu' + 1) (c :: _) = stripTrackF (fv' + 1) (c :: _)
        rw [stripTrackF, stripTrackF, hsep]
        simp only [Bool.false_eq_true, if_false]
        rw [ih fu' fv' (by simpa using hfu) (by simpa using hfv)]
  | seps c hcs hu hv huv ih =>
    intro fu fv hfu hfv
    cases fu with
    | zero => simp at hfu
    | succ fu' =>
      cases fv with
      | zero => simp at hfv
      | succ fv' =>
        have hsep : (c = '?' || c = '&') = true := by
          rcases hcs with rfl | rfl <;> simp
        show stripTrackF (fu' + 1) (c :: _) = stripTrackF (fv' + 1) (c :: _)
        rw [stripTrackF, stripTrackF, hsep]
        simp only [if_true]
        rw [tryTrack_none_of_not hu, tryTrack_none_of_not hv]
        rw [ih fu' fv' (by simpa using hfu) (by simpa using hfv)]
  | track c hcs k hk v1 v2 hv1 hv2 hr1 hr2 hr ih =>
    intro fu fv hfu hfv
    cases fu with
    | zero => simp at hfu
    | succ fu' =>
      cases fv with
      | zero => simp at hfv
      | succ fv' =>
        have hsep : (c = '?' || c = '&') = true := by
          rcases hcs with rfl | rfl <;> simp
        show stripTrackF (fu' + 1) (c :: _) = stripTrackF (fv' + 1) (c :: _)
        rw [stripTrackF, stripTrackF, hsep]
        simp only [if_true]
        rw [tryTrack_track hk hv1 hr1, tryTrack_track hk hv2 hr2]
        refine ih fu' fv' ?_ ?_
        · have := hfu
          simp only [List.length_cons, List.length_append] at this ⊢
          omega
        · have := hfv
          simp only [List.length_cons, List.length_append] at this ⊢
          omega

/-- C4 (amended): for every pair of URLs that differ only in the
*values* of well-formed tracking parameters (`utm_*`, `fbclid`, `ref`,
`feature`), `normalize_url` produces identical output strings, and
therefore `url_hash` produces identical cache keys (of at most 16
characters) for any digest function.  Differing merely in the *presence*
of a tracking parameter does not guarantee this (see the
counterexample). -/
theorem c4_tracking_value_invariance (u v : String) (huv : TEquiv u.data v.data) :
    normalize_url u = normalize_url v
      ∧ (∀ hash : String → String, url_hash hash u = url_hash hash v)
      ∧ (∀ hash : String → String, (url_hash hash u).data.length ≤ 16) := by
  have h1 : stripTrackF u.data.length u.data = stripTrackF v.data.length v.data :=
    stripTrackF_tequiv huv u.data.length v.data.length (le_refl _) (le_refl _)
  have hn : normalize_url u = normalize_url v := by
    unfold normalize_url
    rw [h1]
  refine ⟨hn, fun hash => ?_, fun hash => ?_⟩
  · unfold url_hash
    rw [hn]
  · unfold url_hash
    show ((hash (normalize_url u)).data.take 16).length ≤ 16
    rw [List.length_take]
    exact min_le_left _ _

/-- C4 witness: two URLs differing only in the value of a `utm_s`
parameter normalize identically and share every cache key. -/
theorem c4_tracking_value_invariance_witness :
    normalize_url "http://a?utm_s=1" = normalize_url "http://a?utm_s=2"
      ∧ url_hash hashConst "http://a?utm_s=1" = url_hash hashConst "http://a?utm_s=2" := by
  have hk : trackKey ('u' :: 't' :: 'm' :: '_' :: ['s']) :=
    Or.inr (Or.inr (Or.inr ⟨['s'], by decide, by decide, rfl⟩))
  have ht : TEquiv ('?' :: (('u' :: 't' :: 'm' :: '_' :: ['s']) ++ '=' :: (['1'] ++ [])))
      ('?' :: (('u' :: 't' :: 'm' :: '_' :: ['s']) ++ '=' :: (['2'] ++ []))) :=
    TEquiv.track '?' (Or.inl rfl) _ hk ['1'] ['2'] (by decide) (by decide)
      (Or.inl rfl) (Or.inl rfl) TEquiv.nil
  have hfull : TEquiv ("http://a?utm_s=1" : String).data ("http://a?utm_s=2" : String).data := by
    show TEquiv ('h' :: 't' :: 't' :: 'p' :: ':' :: '/' :: '/' :: 'a' ::
        '?' :: 'u' :: 't' :: 'm' :: '_' :: 's' :: '=' :: '1' :: [])
      ('h' :: 't' :: 't' :: 'p' :: ':' :: '/' :: '/' :: 'a' ::
        '?' :: 'u' :: 't' :: 'm' :: '_' :: 's' :: '=' :: '2' :: [])
    exact TEquiv.copy 'h' (by decide) (TEquiv.copy 't' (by decide)
      (TEquiv.copy 't' (by decide) (TEquiv.copy 'p' (by decide)
        (TEquiv.copy ':' (by decide) (TEquiv.copy '/' (by decide)
          (TEquiv.copy '/' (by decide) (TEquiv.copy 'a' (by decide) ht)))))))
  have hc := c4_tracking_value_invariance "http://a?utm_s=1" "http://a?utm_s=2" hfull
  exact ⟨hc.1, hc.2.1 hashConst⟩
